import Mathlib

/-!
Verification of the `xdi` dependency-injection runtime core.

The definitions below are a shallow embedding of the Python sources under
`src/xdi/` (`markers.py`, `scopes.py`, `_dependency.py`, `__init__.py`).
Pure Python functions become Lean functions; the scope's mutable caches
become explicit state passing; Python `None` / falsiness is modelled with
`Option` and explicit truthiness flags.  Parts of the repository that are
referenced but not present under `src/` (`containers.py`, `_functools.py`,
`providers.py`) are modelled from the specification and marked as such in
their doc comments.
-/

namespace Xdi

/-! ## PRO predicate algebra (src/xdi/markers.py)

Containers are abstract here: `C` is any type with decidable equality
(Python object identity / equality on container objects).  The dynamic
information consulted by predicate leaves — the access level of a container
as seen from the requesting container (`Container.access_level(src.container)`,
a method of the absent `containers.py`, used opaquely by
`AccessLevel.pro_entries`), whether the evaluating scope is the key's source
scope (`scope is src.scope` in `ScopePredicate.pro_entries`), and the
callables wrapped by `ProFilter` — is packaged in a `ProEnv` record.
`ProFilter` stores its callable as an index into `ProEnv.filterFns` because
Python compares filter callables by object identity. -/

structure ProEnv (C : Type) where
  /-- `c.access_level(src.container).vars` — the viewable access level of a
  container from the requesting container's viewpoint. -/
  accessOf : C → Nat
  /-- `scope is src.scope` in `ScopePredicate.pro_entries`. -/
  sameScope : Bool
  /-- the callables held by `ProFilter` predicates, keyed by identity. -/
  filterFns : Nat → C → Bool

/-- The tree of `ProPredicate` values from `markers.py`:
leaves `ProNoopPredicate`, `AccessLevel`, `ScopePredicate`, `ProFilter`,
`ProSlice`; operator nodes `ProOrPredicate`, `ProAndPredicate`,
`ProSubPredicate` and its subclass `ProInvertPredicate` (whose `vars` are
`(noop, right)` by construction). -/
inductive ProPred (C : Type) where
  | noop : ProPred C
  | access (lvl : Nat) : ProPred C
  | scopeP (b : Bool) : ProPred C
  | filt (fnId : Nat) (extraArgs : Nat) : ProPred C
  | slice (start stop step : Option Int) : ProPred C
  | opOr (l r : ProPred C) : ProPred C
  | opAnd (l r : ProPred C) : ProPred C
  | opSub (l r : ProPred C) : ProPred C
  | opInv (r : ProPred C) : ProPred C
deriving DecidableEq

namespace ProPred

/-- First occurrences of each element, in order.  `sorted(res, key=it.index)`
on a Python set `res ⊆ set(it)` lists the distinct elements of `res` by their
first index in `it`; that is exactly `(dedupFirst it).filter (· ∈ res)`. -/
def dedupFirst {C : Type} [DecidableEq C] : List C → List C
  | [] => []
  | c :: cs => c :: dedupFirst (cs.filter (fun x => x ≠ c))
termination_by l => l.length
decreasing_by
  simp only [List.length_cons]
  exact Nat.lt_succ_of_le (List.length_filter_le _ _)

/-- Python slice index normalisation: `slice(start, stop, step).indices(n)`
for one bound, given the clamping bounds `lower`/`upper`. -/
def pyBound (n lower upper : Int) (v : Int) : Int :=
  let v := if v < 0 then v + n else v
  if v < lower then lower else if v > upper then upper else v

/-- The list of indices selected by a Python slice on a sequence of length
`n` (the algorithm of CPython's `slice.indices`). -/
def pySliceIndices (n : Int) (start stop step : Option Int) : List Int :=
  let step := step.getD 1
  if step = 0 then [] -- Python raises ValueError; unreachable from ProSlice use
  else if step > 0 then
    let lower : Int := 0
    let upper : Int := n
    let start := match start with
      | none => lower
      | some v => pyBound n lower upper v
    let stop := match stop with
      | none => upper
      | some v => pyBound n lower upper v
    let cnt : Nat := (((stop - start) + step - 1) / step).toNat
    (List.range cnt).map (fun k => start + step * k)
  else
    let lower : Int := -1
    let upper : Int := n - 1
    let start := match start with
      | none => upper
      | some v => pyBound n lower upper v
    let stop := match stop with
      | none => lower
      | some v => pyBound n lower upper v
    let cnt : Nat := (((start - stop) + (-step) - 1) / (-step)).toNat
    (List.range cnt).map (fun k => start + step * k)

/-- `it[start:stop:step]` on a Python tuple. -/
def pySlice {C : Type} (it : List C) (start stop step : Option Int) : List C :=
  (pySliceIndices (it.length : Int) start stop step).filterMap
    (fun i => it.get? i.toNat)

/-- `ProPredicate.pro_entries(it, scope, src)` for each predicate variant.

* `ProNoopPredicate`: returns `it` unchanged.
* `AccessLevel`: `tuple(c for c in it if self in c.access_level(src.container))`,
  where `x in lvl` is `lvl.vars >= x.vars`.
* `ScopePredicate`: `it` when `(scope is src.scope,) == self.vars`, else `()`.
* `ProFilter`: `tuple(c for c in it if fn(c, *args[:ln]))`.
* `ProSlice`: `tuple(it)[start:stop:step]` (container-valued bounds are not
  modelled; integer bounds follow Python slicing).
* operator nodes (`ProOperatorPredicate.pro_entries`): each operand's
  entries are collapsed to a set, combined with `or_`/`and_`/`sub`, and the
  result is `sorted(res, key=it.index)` — i.e. the distinct elements of the
  combination listed in first-occurrence order of `it`.
  `ProInvertPredicate` is `ProSubPredicate` with `vars = (noop, right)`. -/
def proEntries {C : Type} [DecidableEq C] (env : ProEnv C) :
    ProPred C → List C → List C
  | noop, it => it
  | access lvl, it => it.filter (fun c => lvl ≤ env.accessOf c)
  | scopeP b, it => if env.sameScope = b then it else []
  | filt fnId _, it => it.filter (env.filterFns fnId)
  | slice start stop step, it => pySlice it start stop step
  | opOr l r, it =>
    let e1 := proEntries env l it
    let e2 := proEntries env r it
    (dedupFirst it).filter (fun c => c ∈ e1 || c ∈ e2)
  | opAnd l r, it =>
    let e1 := proEntries env l it
    let e2 := proEntries env r it
    (dedupFirst it).filter (fun c => c ∈ e1 && c ∈ e2)
  | opSub l r, it =>
    let e1 := proEntries env l it
    let e2 := proEntries env r it
    (dedupFirst it).filter (fun c => c ∈ e1 && !(c ∈ e2))
  | opInv r, it =>
    -- vars are `(noop, right)`; `noop.pro_entries(it, …)` is `it` itself
    let e1 := it
    let e2 := proEntries env r it
    (dedupFirst it).filter (fun c => c ∈ e1 && !(c ∈ e2))

/-- Predicates that contain no `ProSlice` node. -/
def sliceFree {C : Type} : ProPred C → Bool
  | noop => true
  | access _ => true
  | scopeP _ => true
  | filt _ _ => true
  | slice _ _ _ => false
  | opOr l r => sliceFree l && sliceFree r
  | opAnd l r => sliceFree l && sliceFree r
  | opSub l r => sliceFree l && sliceFree r
  | opInv r => sliceFree r

/-- The pointwise filter a slice-free predicate denotes (for `ProSlice`,
which is position-dependent, the value is irrelevant). -/
def semPred {C : Type} (env : ProEnv C) : ProPred C → C → Bool
  | noop, _ => true
  | access lvl, c => lvl ≤ env.accessOf c
  | scopeP b, _ => env.sameScope = b
  | filt fnId _, c => env.filterFns fnId c
  | slice _ _ _, _ => true
  | opOr l r, c => semPred env l c || semPred env r c
  | opAnd l r, c => semPred env l c && semPred env r c
  | opSub l r, c => semPred env l c && !(semPred env r c)
  | opInv r, c => !(semPred env r c)

theorem dedupFirst_sublist {C : Type} [DecidableEq C] :
    ∀ l : List C, List.Sublist (dedupFirst l) l
  | [] => by rw [dedupFirst]
  | c :: cs => by
    rw [dedupFirst]
    exact ((dedupFirst_sublist (cs.filter (fun x => x ≠ c))).trans
      (List.filter_sublist _)).cons₂ c
termination_by l => l.length
decreasing_by
  simp only [List.length_cons]
  exact Nat.lt_succ_of_le (List.length_filter_le _ _)

theorem mem_dedupFirst {C : Type} [DecidableEq C] :
    ∀ (l : List C) (a : C), a ∈ dedupFirst l ↔ a ∈ l
  | [], a => by rw [dedupFirst]
  | c :: cs, a => by
    rw [dedupFirst]
    by_cases h : a = c
    · subst h; simp
    · simp only [List.mem_cons, mem_dedupFirst (cs.filter (fun x => x ≠ c)) a,
        List.mem_filter, h, false_or]
      simp [h]
termination_by l => l.length
decreasing_by
  simp only [List.length_cons]
  exact Nat.lt_succ_of_le (List.length_filter_le _ _)

theorem nodup_dedupFirst {C : Type} [DecidableEq C] :
    ∀ l : List C, (dedupFirst l).Nodup
  | [] => by rw [dedupFirst]; exact List.nodup_nil
  | c :: cs => by
    rw [dedupFirst]
    refine List.nodup_cons.mpr ⟨fun hmem => ?_, nodup_dedupFirst _⟩
    have := (List.mem_filter.mp ((mem_dedupFirst _ _).mp hmem)).2
    simp at this
termination_by l => l.length
decreasing_by
  simp only [List.length_cons]
  exact Nat.lt_succ_of_le (List.length_filter_le _ _)

theorem dedupFirst_eq_self {C : Type} [DecidableEq C] :
    ∀ l : List C, l.Nodup → dedupFirst l = l
  | [], _ => by rw [dedupFirst]
  | c :: cs, h => by
    rw [dedupFirst]
    have hcs : cs.filter (fun x => x ≠ c) = cs := by
      refine List.filter_eq_self.mpr fun a ha => ?_
      have : a ≠ c := fun hac => (List.nodup_cons.mp h).1 (hac ▸ ha)
      simp [this]
    rw [hcs, dedupFirst_eq_self cs (List.nodup_cons.mp h).2]
termination_by l => l.length

/-- Membership characterization: on slice-free predicates, `pro_entries`
selects exactly the elements of the input PRO satisfying the predicate's
pointwise filter. -/
theorem mem_proEntries {C : Type} [DecidableEq C] (env : ProEnv C) :
    ∀ p : ProPred C, sliceFree p = true → ∀ (it : List C) (c : C),
      (c ∈ proEntries env p it ↔ c ∈ it ∧ semPred env p c = true)
  | noop, _, it, c => by simp [proEntries, semPred]
  | access lvl, _, it, c => by simp [proEntries, semPred, List.mem_filter]
  | scopeP b, _, it, c => by
    by_cases h : env.sameScope = b <;> simp [proEntries, semPred, h]
  | filt fnId n, _, it, c => by simp [proEntries, semPred, List.mem_filter]
  | slice _ _ _, hp, it, c => by simp [sliceFree] at hp
  | opOr l r, hp, it, c => by
    obtain ⟨hl, hr⟩ : sliceFree l = true ∧ sliceFree r = true := by
      simpa [sliceFree] using hp
    simp only [proEntries, List.mem_filter, mem_dedupFirst, semPred,
      Bool.or_eq_true, decide_eq_true_eq,
      mem_proEntries env l hl it c, mem_proEntries env r hr it c]
    tauto
  | opAnd l r, hp, it, c => by
    obtain ⟨hl, hr⟩ : sliceFree l = true ∧ sliceFree r = true := by
      simpa [sliceFree] using hp
    simp only [proEntries, List.mem_filter, mem_dedupFirst, semPred,
      Bool.and_eq_true, decide_eq_true_eq,
      mem_proEntries env l hl it c, mem_proEntries env r hr it c]
    tauto
  | opSub l r, hp, it, c => by
    obtain ⟨hl, hr⟩ : sliceFree l = true ∧ sliceFree r = true := by
      simpa [sliceFree] using hp
    simp only [proEntries, List.mem_filter, mem_dedupFirst, semPred,
      Bool.and_eq_true, Bool.not_eq_true', decide_eq_false_iff_not,
      decide_eq_true_eq, mem_proEntries env l hl it c,
      mem_proEntries env r hr it c]
    constructor
    · rintro ⟨hit, hb1, hb2⟩
      refine ⟨hit, hb1.2, ?_⟩
      by_contra hc
      exact hb2 ⟨hit, Bool.not_eq_false (semPred env r c) ▸ (by simpa using hc)⟩
    · rintro ⟨hit, hb1, hb2⟩
      exact ⟨hit, ⟨hit, hb1⟩, fun hc => by simp [hc.2] at hb2⟩
  | opInv r, hp, it, c => by
    have hr : sliceFree r = true := by simpa [sliceFree] using hp
    simp only [proEntries, List.mem_filter, mem_dedupFirst, semPred,
      Bool.and_eq_true, Bool.not_eq_true', decide_eq_false_iff_not,
      decide_eq_true_eq, mem_proEntries env r hr it c]
    constructor
    · rintro ⟨hit, _, hb2⟩
      refine ⟨hit, ?_⟩
      by_contra hc
      exact hb2 ⟨hit, Bool.not_eq_false (semPred env r c) ▸ (by simpa using hc)⟩
    · rintro ⟨hit, hb⟩
      exact ⟨hit, hit, fun hc => by simp [hc.2] at hb⟩

theorem proEntries_sublist_of_sliceFree {C : Type} [DecidableEq C]
    (env : ProEnv C) (p : ProPred C) (hp : sliceFree p = true) (it : List C) :
    List.Sublist (proEntries env p it) it := by
  cases p with
  | noop => exact List.Sublist.refl it
  | access lvl => exact List.filter_sublist it
  | scopeP b =>
    by_cases h : env.sameScope = b
    · simp only [proEntries, h, if_true]
      exact List.Sublist.refl it
    · simp only [proEntries, h, if_false]
      exact List.nil_sublist it
  | filt fnId n => exact List.filter_sublist it
  | slice s e st => simp [sliceFree] at hp
  | opOr l r => exact (List.filter_sublist _).trans (dedupFirst_sublist it)
  | opAnd l r => exact (List.filter_sublist _).trans (dedupFirst_sublist it)
  | opSub l r => exact (List.filter_sublist _).trans (dedupFirst_sublist it)
  | opInv r => exact (List.filter_sublist _).trans (dedupFirst_sublist it)

/-- Idempotence of `pro_entries` for slice-free predicates. -/
theorem proEntries_idem {C : Type} [DecidableEq C]
    (env : ProEnv C) (p : ProPred C) (hp : sliceFree p = true) (it : List C) :
    proEntries env p (proEntries env p it) = proEntries env p it := by
  cases p with
  | noop => rfl
  | access lvl =>
    simp only [proEntries]
    rw [List.filter_filter]
    simp only [Bool.and_self]
  | scopeP b =>
    by_cases h : env.sameScope = b <;> simp [proEntries, h]
  | filt fnId n =>
    simp only [proEntries]
    rw [List.filter_filter]
    simp only [Bool.and_self]
  | slice s e st => simp [sliceFree] at hp
  | opOr l r =>
    obtain ⟨hl, hr⟩ : sliceFree l = true ∧ sliceFree r = true := by
      simpa [sliceFree] using hp
    have h1 : (proEntries env (opOr l r) it).Nodup := by
      simp only [proEntries]
      exact (nodup_dedupFirst it).filter _
    have h2 : ∀ c ∈ proEntries env (opOr l r) it,
        semPred env (opOr l r) c = true :=
      fun c hc => ((mem_proEntries env (opOr l r) hp it c).mp hc).2
    generalize hgen : proEntries env (opOr l r) it = r1 at h1 h2 ⊢
    simp only [proEntries]
    rw [dedupFirst_eq_self r1 h1]
    refine List.filter_eq_self.mpr fun c hc => ?_
    have hsem := h2 c hc
    simp only [semPred, Bool.or_eq_true] at hsem
    simp only [Bool.or_eq_true, decide_eq_true_eq,
      mem_proEntries env l hl r1 c, mem_proEntries env r hr r1 c]
    tauto
  | opAnd l r =>
    obtain ⟨hl, hr⟩ : sliceFree l = true ∧ sliceFree r = true := by
      simpa [sliceFree] using hp
    have h1 : (proEntries env (opAnd l r) it).Nodup := by
      simp only [proEntries]
      exact (nodup_dedupFirst it).filter _
    have h2 : ∀ c ∈ proEntries env (opAnd l r) it,
        semPred env (opAnd l r) c = true :=
      fun c hc => ((mem_proEntries env (opAnd l r) hp it c).mp hc).2
    generalize hgen : proEntries env (opAnd l r) it = r1 at h1 h2 ⊢
    simp only [proEntries]
    rw [dedupFirst_eq_self r1 h1]
    refine List.filter_eq_self.mpr fun c hc => ?_
    have hsem := h2 c hc
    simp only [semPred, Bool.and_eq_true] at hsem
    simp only [Bool.and_eq_true, decide_eq_true_eq,
      mem_proEntries env l hl r1 c, mem_proEntries env r hr r1 c]
    tauto
  | opSub l r =>
    obtain ⟨hl, hr⟩ : sliceFree l = true ∧ sliceFree r = true := by
      simpa [sliceFree] using hp
    have h1 : (proEntries env (opSub l r) it).Nodup := by
      simp only [proEntries]
      exact (nodup_dedupFirst it).filter _
    have h2 : ∀ c ∈ proEntries env (opSub l r) it,
        semPred env (opSub l r) c = true :=
      fun c hc => ((mem_proEntries env (opSub l r) hp it c).mp hc).2
    generalize hgen : proEntries env (opSub l r) it = r1 at h1 h2 ⊢
    simp only [proEntries]
    rw [dedupFirst_eq_self r1 h1]
    refine List.filter_eq_self.mpr fun c hc => ?_
    have hsem := h2 c hc
    simp only [semPred, Bool.and_eq_true, Bool.not_eq_true'] at hsem
    simp only [Bool.and_eq_true, Bool.not_eq_true', decide_eq_false_iff_not,
      decide_eq_true_eq, mem_proEntries env l hl r1 c,
      mem_proEntries env r hr r1 c]
    exact ⟨⟨hc, hsem.1⟩, fun hx => by simp [hsem.2] at hx⟩
  | opInv r =>
    have hr : sliceFree r = true := by simpa [sliceFree] using hp
    have h1 : (proEntries env (opInv r) it).Nodup := by
      simp only [proEntries]
      exact (nodup_dedupFirst it).filter _
    have h2 : ∀ c ∈ proEntries env (opInv r) it,
        semPred env (opInv r) c = true :=
      fun c hc => ((mem_proEntries env (opInv r) hp it c).mp hc).2
    generalize hgen : proEntries env (opInv r) it = r1 at h1 h2 ⊢
    simp only [proEntries]
    rw [dedupFirst_eq_self r1 h1]
    refine List.filter_eq_self.mpr fun c hc => ?_
    have hsem := h2 c hc
    simp only [semPred, Bool.not_eq_true'] at hsem
    simp only [Bool.and_eq_true, Bool.not_eq_true', decide_eq_false_iff_not,
      decide_eq_true_eq, mem_proEntries env r hr r1 c]
    exact ⟨hc, fun hx => by simp [hsem] at hx⟩

/-- Python `==` between predicate values, compiled from the dispatch
protocol: `a == b` first calls `type(a).__eq__(a, b)`
(`_PredicateCompareMixin.__eq__`: if `isinstance(b, type(a))` compare
`a.vars == b.vars`, else `NotImplemented`), then the reflected
`type(b).__eq__(b, a)`, and finally falls back to identity (which can no
longer succeed).  The only proper subclass relation among the concrete
predicate classes is `ProInvertPredicate <: ProSubPredicate`, and an invert
node's `vars` are `(noop, right)`; hence the mixed `opSub`/`opInv` cases.
`vars` tuples are compared elementwise with `==`: enum/int/slice members by
value, `ProFilter` callables by identity (the `fnId` index), sub-predicates
recursively.  In the mixed `opSub`/`opInv` cases the left slot of the invert
node is the interned `ProNoopPredicate()` singleton, and a comparison of any
predicate with that singleton succeeds only on the singleton itself (both
`isinstance` checks of the mixin fail across classes, leaving the identity
fallback), so that slot comparison is written as equality with `noop`. -/
def pyEq {C : Type} [DecidableEq C] : ProPred C → ProPred C → Bool
  | noop, noop => true
  | access l, access m => l == m
  | scopeP a, scopeP b => a == b
  | filt f n, filt g m => f == g && n == m
  | slice a b c, slice a2 b2 c2 => a == a2 && b == b2 && c == c2
  | opOr l r, opOr l2 r2 => pyEq l l2 && pyEq r r2
  | opAnd l r, opAnd l2 r2 => pyEq l l2 && pyEq r r2
  | opSub l r, opSub l2 r2 => pyEq l l2 && pyEq r r2
  | opSub l r, opInv r2 => (l == noop) && pyEq r r2
  | opInv r, opSub l2 r2 => (l2 == noop) && pyEq r r2
  | opInv r, opInv r2 => pyEq r r2
  | _, _ => false

theorem pyEq_refl {C : Type} [DecidableEq C] :
    ∀ p : ProPred C, pyEq p p = true
  | noop => by simp [pyEq]
  | access l => by simp [pyEq]
  | scopeP a => by simp [pyEq]
  | filt f n => by simp [pyEq]
  | slice a b c => by simp [pyEq]
  | opOr l r => by simp [pyEq, pyEq_refl l, pyEq_refl r]
  | opAnd l r => by simp [pyEq, pyEq_refl l, pyEq_refl r]
  | opSub l r => by simp [pyEq, pyEq_refl l, pyEq_refl r]
  | opInv r => by simp [pyEq, pyEq_refl r]

theorem pyEq_noop_right_iff {C : Type} [DecidableEq C] (p : ProPred C) :
    pyEq p noop = true ↔ p = noop := by
  cases p <;> simp [pyEq]

theorem pyEq_noop_left_iff {C : Type} [DecidableEq C] (p : ProPred C) :
    pyEq noop p = true ↔ p = noop := by
  cases p <;> simp [pyEq]

/-- `_PredicateOpsMixin.__or__`: absorb an operand equal to `self`,
otherwise build a `ProOrPredicate` node.  The Python guard
`isinstance(x, ProPredicate)` always holds for predicate operands. -/
def pyOr {C : Type} [DecidableEq C] (self x : ProPred C) : ProPred C :=
  if pyEq x self then self else opOr self x

/-- `_PredicateOpsMixin.__and__`: absorb an operand equal to `self`,
otherwise build a `ProAndPredicate` node. -/
def pyAnd {C : Type} [DecidableEq C] (self x : ProPred C) : ProPred C :=
  if pyEq x self then self else opAnd self x

/-- The body of `_PredicateOpsMixin.__invert__` as written in the source:
`def __invert__(self, x)` builds `ProInvertPredicate(self)` when `x` is a
predicate.  Note the second required parameter `x`. -/
def invertMethod {C : Type} (self _x : ProPred C) : ProPred C :=
  opInv self

/-- The number of parameters of the `__invert__` method as defined in the
source (`self` and `x`). -/
def invertArity : Nat := 2

/-- A Python call of a method that requires `arity` positional parameters:
it raises `TypeError` (modelled as `none`) unless exactly `arity` arguments
are supplied. -/
def callMethod {C : Type} (arity : Nat) (args : List (ProPred C))
    (body : List (ProPred C) → ProPred C) : Option (ProPred C) :=
  if args.length = arity then some (body args) else none

/-- The unary operator `~p`: Python invokes `type(p).__invert__(p)` with the
single argument `p`, against the two-parameter signature in the source. -/
def tildeOp {C : Type} [DecidableEq C] (p : ProPred C) : Option (ProPred C) :=
  callMethod invertArity [p]
    (fun args => invertMethod (args.getD 0 p) (args.getD 1 p))

end ProPred

/-- A concrete predicate environment over `Nat` containers: the access level
of container `c` is `c` itself, the evaluating scope is the source scope,
and all filter callables accept every container. -/
def natProEnv : ProEnv Nat :=
  { accessOf := fun c => c, sameScope := true, filterFns := fun _ _ => true }

/-- C3: the claim as stated is false: `ProSlice.pro_entries` is not
idempotent (`[0:1]` dropped to `it[1:]` loses an element on the second
application), and with a negative step it is not even order-preserving
(`it[::-1]` reverses the PRO). -/
theorem c3_slice_counterexample :
    ¬ (ProPred.proEntries natProEnv (ProPred.slice (some 1) none none)
        (ProPred.proEntries natProEnv (ProPred.slice (some 1) none none)
          [0, 1]) =
      ProPred.proEntries natProEnv (ProPred.slice (some 1) none none)
        [0, 1]) ∧
    ¬ List.Sublist
        (ProPred.proEntries natProEnv
          (ProPred.slice none none (some (-1))) [0, 1]) [0, 1] := by
  constructor
  · decide
  · decide

/-- C3 (amended): for every slice-free PRO predicate `p` and every PRO `π`,
`p.pro_entries(π)` is an order-preserving subsequence of `π`, and applying it
twice gives the same result as applying it once. -/
theorem c3_proEntries_subsequence_and_idempotent
    {C : Type} [DecidableEq C] (env : ProEnv C) (p : ProPred C)
    (hp : ProPred.sliceFree p = true) (π : List C) :
    List.Sublist (ProPred.proEntries env p π) π ∧
      ProPred.proEntries env p (ProPred.proEntries env p π) =
        ProPred.proEntries env p π :=
  ⟨ProPred.proEntries_sublist_of_sliceFree env p hp π,
    ProPred.proEntries_idem env p hp π⟩

/-- Witness for C3's theorem at a concrete slice-free predicate
`~AccessLevel(2) ∧ Filter(id 0)` on the PRO `[0, 1, 2, 3]`. -/
theorem c3_proEntries_witness :
    ProPred.sliceFree
        (ProPred.opAnd (ProPred.opInv (ProPred.access 2))
          (ProPred.filt 0 0) : ProPred Nat) = true ∧
      (List.Sublist
          (ProPred.proEntries natProEnv
            (ProPred.opAnd (ProPred.opInv (ProPred.access 2))
              (ProPred.filt 0 0)) [0, 1, 2, 3]) [0, 1, 2, 3] ∧
        ProPred.proEntries natProEnv
            (ProPred.opAnd (ProPred.opInv (ProPred.access 2))
              (ProPred.filt 0 0))
            (ProPred.proEntries natProEnv
              (ProPred.opAnd (ProPred.opInv (ProPred.access 2))
                (ProPred.filt 0 0)) [0, 1, 2, 3]) =
          ProPred.proEntries natProEnv
            (ProPred.opAnd (ProPred.opInv (ProPred.access 2))
              (ProPred.filt 0 0)) [0, 1, 2, 3]) :=
  ⟨by decide,
    c3_proEntries_subsequence_and_idempotent natProEnv _ (by decide)
      [0, 1, 2, 3]⟩

/-! ## Dependency markers (src/xdi/markers.py: `PureDep`, `Dep`)

`Mark C` is the universe of injectable values relevant to the marker
constructors: plain injectables (`atom`, identified by a number standing
for Python object identity/equality of types, functions, type vars, …),
`PureDep` wrappers, and `Dep(abstract, predicate, default)` nodes.  A `Dep`
whose `default` is the `Missing` sentinel is `depD`; one with a present
default (possibly itself a marker) is `depDd` — the two constructors encode
the `Option` default, which keeps the type a plain (non-nested) inductive. -/

inductive Mark (C : Type) where
  | atom (n : Nat) : Mark C
  | pureD (a : Mark C) : Mark C
  | depD (a : Mark C) (p : ProPred C) : Mark C
  | depDd (a : Mark C) (p : ProPred C) (d : Mark C) : Mark C
deriving DecidableEq

namespace Mark

/-- `PureDep.__new__`: return `abstract` itself when its class is exactly
`PureDep`, otherwise wrap it. -/
def mkPureDep {C : Type} : Mark C → Mark C
  | pureD a => pureD a
  | m => pureD m

/-- `abstract.__class__ in (Dep, PureDep)` — the interning test of
`Dep.__new__`. -/
def isDepOrPure {C : Type} : Mark C → Bool
  | pureD _ => true
  | depD _ _ => true
  | depDd _ _ _ => true
  | atom _ => false

/-- `Dep.__new__`: when `(predicate, default)` equals `(ProNoopPredicate(),
Missing)` (membership in `_pure_dep_default_set`, i.e. `predicate == noop`
and `default is Missing`), return `abstract` itself if it is already a
`Dep` or `PureDep`, else the interned `PureDep(abstract)`; otherwise build
a `Dep` node with ident `(abstract, predicate, default)`. -/
def mkDep {C : Type} [DecidableEq C] (abstract : Mark C)
    (predicate : ProPred C) (default : Option (Mark C)) : Mark C :=
  if ProPred.pyEq predicate ProPred.noop && default.isNone then
    if isDepOrPure abstract then abstract else mkPureDep abstract
  else
    match default with
    | none => depD abstract predicate
    | some d => depDd abstract predicate d

/-- Python `==` between markers and injectables, compiled from the dispatch
protocol.  `PureDep.__eq__` with `cls is PureDep` compares `self._ident == x`
— a `PureDep` on either side (left operand first) is stripped and its
wrapped ident compared.  `Dep.__eq__` (same method body with `cls is Dep`)
compares the `_ident` triples elementwise when the other operand is also a
`Dep` and is `NotImplemented` otherwise; two values of unrelated classes
fall back to identity and compare unequal.  A `Missing` default equals only
itself. -/
def pyEqM {C : Type} [DecidableEq C] : Mark C → Mark C → Bool
  | pureD i, x => pyEqM i x
  | x, pureD i => pyEqM x i
  | atom n, atom m => n == m
  | depD a p, depD a2 p2 => pyEqM a a2 && ProPred.pyEq p p2
  | depDd a p d, depDd a2 p2 d2 =>
    pyEqM a a2 && ProPred.pyEq p p2 && pyEqM d d2
  | _, _ => false
termination_by a b => sizeOf a + sizeOf b
decreasing_by all_goals (simp; try omega)

/-- Hash parameters: Python hash values of plain injectables, predicates,
the `Missing` sentinel, and of 3-tuples. -/
structure HashEnv (C : Type) where
  atomHash : Nat → Nat
  predHash : ProPred C → Nat
  missHash : Nat
  tripleHash : Nat → Nat → Nat → Nat

/-- Python `hash` of markers: `PureDep.__hash__` is `hash(self._ident)` —
the hash of the wrapped injectable — and `Dep.__hash__` is the hash of the
`_ident` triple `(abstract, predicate, default)`. -/
def pyHashM {C : Type} (H : HashEnv C) : Mark C → Nat
  | atom n => H.atomHash n
  | pureD a => pyHashM H a
  | depD a p => H.tripleHash (pyHashM H a) (H.predHash p) H.missHash
  | depDd a p d =>
    H.tripleHash (pyHashM H a) (H.predHash p) (pyHashM H d)

theorem pyEqM_pureD_left {C : Type} [DecidableEq C] (i x : Mark C) :
    pyEqM (pureD i) x = pyEqM i x := by
  rw [pyEqM]

theorem pyEqM_pureD_right {C : Type} [DecidableEq C] :
    ∀ x i : Mark C, pyEqM x (pureD i) = pyEqM x i
  | atom n, i => by simp [pyEqM]
  | pureD j, i => by
    rw [pyEqM_pureD_left, pyEqM_pureD_left, pyEqM_pureD_right j i]
  | depD a p, i => by simp [pyEqM]
  | depDd a p d, i => by simp [pyEqM]
termination_by x => sizeOf x

theorem pyEqM_refl {C : Type} [DecidableEq C] :
    ∀ m : Mark C, pyEqM m m = true
  | atom n => by simp [pyEqM]
  | pureD a => by rw [pyEqM_pureD_left, pyEqM_pureD_right, pyEqM_refl a]
  | depD a p => by simp [pyEqM, pyEqM_refl a, ProPred.pyEq_refl p]
  | depDd a p d => by
    simp [pyEqM, pyEqM_refl a, ProPred.pyEq_refl p, pyEqM_refl d]
termination_by m => sizeOf m

end Mark

/-- `PureDep.__and__` (inherited unchanged by `Dep`):
`self.replace(predicate=self.predicate & x)`, where `replace` rebuilds the
marker as `Dep(abstract, predicate, default)` — a `PureDep` contributes its
class-level `predicate = ProNoopPredicate()` and `default = Missing`.
A plain injectable has no such operator (`none`). -/
def Mark.markAnd {C : Type} [DecidableEq C] :
    Mark C → ProPred C → Option (Mark C)
  | Mark.pureD a, x => some (Mark.mkDep a (ProPred.pyAnd ProPred.noop x) none)
  | Mark.depD a p, x => some (Mark.mkDep a (ProPred.pyAnd p x) none)
  | Mark.depDd a p d, x =>
    some (Mark.mkDep a (ProPred.pyAnd p x) (some d))
  | Mark.atom _, _ => none

/-- `marker.abstract` — the wrapped injectable. -/
def Mark.abstractOf {C : Type} : Mark C → Mark C
  | Mark.atom n => Mark.atom n
  | Mark.pureD a => a
  | Mark.depD a _ => a
  | Mark.depDd a _ _ => a

/-- `marker.default` (`Missing` is `none`). -/
def Mark.defaultOf {C : Type} : Mark C → Option (Mark C)
  | Mark.depDd _ _ d => some d
  | _ => none

/-- Markers as produced by the public API: a `PureDep` or `Dep` over a plain
injectable. -/
def Mark.simpleMarker {C : Type} : Mark C → Bool
  | Mark.pureD (Mark.atom _) => true
  | Mark.depD (Mark.atom _) _ => true
  | Mark.depDd (Mark.atom _) _ _ => true
  | _ => false

/-- C2: constructing `Dep(a)` with the default predicate (`Noop`) and
default value (`Missing`) returns `a` itself when `a` is already a
`Dep`/`PureDep` and the interned `PureDep(a)` otherwise, and `PureDep(a)`
compares equal to `a` with equal hashes. -/
theorem c2_dep_defaults_interned {C : Type} [DecidableEq C]
    (a : Mark C) (H : Mark.HashEnv C) :
    Mark.mkDep a ProPred.noop none =
        (if Mark.isDepOrPure a then a else Mark.mkPureDep a) ∧
      Mark.pyEqM (Mark.mkPureDep a) a = true ∧
      Mark.pyHashM H (Mark.mkPureDep a) = Mark.pyHashM H a := by
  refine ⟨?_, ?_, ?_⟩
  · simp [Mark.mkDep, ProPred.pyEq_refl]
  · cases a <;>
      simp [Mark.mkPureDep, Mark.pyEqM_pureD_left, Mark.pyEqM_pureD_right,
        Mark.pyEqM_refl]
  · cases a <;> simp [Mark.mkPureDep, Mark.pyHashM]

/-- C10: combining a predicate with an equal predicate is absorbed at
construction time — `p & q` and `p | q` return `p` itself whenever
`q == p`, so no `ProAndPredicate`/`ProOrPredicate` node is built for equal
operands. -/
theorem c10_equal_operands_absorbed {C : Type} [DecidableEq C]
    (p q : ProPred C) (h : ProPred.pyEq q p = true) :
    ProPred.pyAnd p q = p ∧ ProPred.pyOr p q = p := by
  simp [ProPred.pyAnd, ProPred.pyOr, h]

/-- Witness for C10 at `p = ProInvertPredicate(AccessLevel(1))` and the
structurally different but `==`-equal `q = ProSubPredicate(noop,
AccessLevel(1))`. -/
theorem c10_equal_operands_absorbed_witness :
    ProPred.pyEq
        (ProPred.opSub ProPred.noop (ProPred.access 1) : ProPred Nat)
        (ProPred.opInv (ProPred.access 1)) = true ∧
      (ProPred.pyAnd (ProPred.opInv (ProPred.access 1) : ProPred Nat)
            (ProPred.opSub ProPred.noop (ProPred.access 1)) =
          ProPred.opInv (ProPred.access 1) ∧
        ProPred.pyOr (ProPred.opInv (ProPred.access 1) : ProPred Nat)
            (ProPred.opSub ProPred.noop (ProPred.access 1)) =
          ProPred.opInv (ProPred.access 1)) :=
  ⟨by decide,
    c10_equal_operands_absorbed (ProPred.opInv (ProPred.access 1))
      (ProPred.opSub ProPred.noop (ProPred.access 1)) (by decide)⟩

theorem pyEq_opAnd_noop_false {C : Type} [DecidableEq C] (l r : ProPred C) :
    ProPred.pyEq (ProPred.opAnd l r) ProPred.noop = false := by
  have h := ProPred.pyEq_noop_right_iff (ProPred.opAnd l r)
  cases hb : ProPred.pyEq (ProPred.opAnd l r) ProPred.noop
  · rfl
  · exact absurd (h.mp hb) (by simp)

theorem pyAnd_opInv_not_noop {C : Type} [DecidableEq C]
    (x p : ProPred C) :
    ProPred.pyEq (ProPred.pyAnd x (ProPred.opInv p)) ProPred.noop = false := by
  rw [ProPred.pyAnd]
  by_cases hc : ProPred.pyEq (ProPred.opInv p) x = true
  · rw [if_pos hc]
    cases hb : ProPred.pyEq x ProPred.noop
    · rfl
    · have hx := (ProPred.pyEq_noop_right_iff x).mp hb
      subst hx
      simp [ProPred.pyEq] at hc
  · rw [if_neg hc]
    exact pyEq_opAnd_noop_false _ _

/-- C4 (supporting theorem; the claim itself is a code bug): as written,
`__invert__` has a second required parameter, so the unary `~p` raises
`TypeError` (`tildeOp p = none`) and the round trip `(d & p) & ~p` cannot
be evaluated at all.  Under the intended unary invert — building
`ProInvertPredicate(p)` — the round trip leaves the `abstract` and
`default` slots of an API-constructed marker unchanged. -/
theorem c4_invert_arity_and_intended_roundtrip {C : Type} [DecidableEq C]
    (m : Mark C) (p : ProPred C) (hm : Mark.simpleMarker m = true) :
    ProPred.tildeOp p = none ∧
      ∀ m1 m2 : Mark C, Mark.markAnd m p = some m1 →
        Mark.markAnd m1 (ProPred.opInv p) = some m2 →
        Mark.abstractOf m2 = Mark.abstractOf m ∧
          Mark.defaultOf m2 = Mark.defaultOf m := by
  constructor
  · rfl
  · intro m1 m2 h1 h2
    -- `markAnd` on an API marker rebuilds a marker over the same plain
    -- injectable; after the first step the predicate slot can only be
    -- `noop`-equal when interning collapsed it back to a `PureDep`, and
    -- after conjoining the (intended) invert node it never is.
    match m, hm with
    | Mark.pureD (Mark.atom n), _ =>
      rw [Mark.markAnd] at h1
      by_cases hc : ProPred.pyEq (ProPred.pyAnd ProPred.noop p)
          ProPred.noop = true
      · rw [Mark.mkDep] at h1
        simp [hc, Mark.isDepOrPure, Mark.mkPureDep] at h1
        subst h1
        rw [Mark.markAnd] at h2
        rw [Mark.mkDep] at h2
        have hno : ProPred.pyEq (ProPred.pyAnd ProPred.noop (ProPred.opInv p))
            ProPred.noop = false := pyAnd_opInv_not_noop _ _
        simp [hno] at h2
        subst h2
        simp [Mark.abstractOf, Mark.defaultOf]
      · rw [Mark.mkDep] at h1
        simp [hc] at h1
        subst h1
        rw [Mark.markAnd] at h2
        rw [Mark.mkDep] at h2
        have hno : ProPred.pyEq
            (ProPred.pyAnd (ProPred.pyAnd ProPred.noop p) (ProPred.opInv p))
            ProPred.noop = false :=
          pyAnd_opInv_not_noop _ _
        simp [hno] at h2
        subst h2
        simp [Mark.abstractOf, Mark.defaultOf]
    | Mark.depD (Mark.atom n) p0, _ =>
      rw [Mark.markAnd] at h1
      by_cases hc : ProPred.pyEq (ProPred.pyAnd p0 p) ProPred.noop = true
      · rw [Mark.mkDep] at h1
        simp [hc, Mark.isDepOrPure, Mark.mkPureDep] at h1
        subst h1
        rw [Mark.markAnd] at h2
        rw [Mark.mkDep] at h2
        have hno : ProPred.pyEq (ProPred.pyAnd ProPred.noop (ProPred.opInv p))
            ProPred.noop = false := pyAnd_opInv_not_noop _ _
        simp [hno] at h2
        subst h2
        simp [Mark.abstractOf, Mark.defaultOf]
      · rw [Mark.mkDep] at h1
        simp [hc] at h1
        subst h1
        rw [Mark.markAnd] at h2
        rw [Mark.mkDep] at h2
        have hno : ProPred.pyEq
            (ProPred.pyAnd (ProPred.pyAnd p0 p) (ProPred.opInv p))
            ProPred.noop = false :=
          pyAnd_opInv_not_noop _ _
        simp [hno] at h2
        subst h2
        simp [Mark.abstractOf, Mark.defaultOf]
    | Mark.depDd (Mark.atom n) p0 d0, _ =>
      rw [Mark.markAnd] at h1
      rw [Mark.mkDep] at h1
      simp at h1
      subst h1
      rw [Mark.markAnd] at h2
      rw [Mark.mkDep] at h2
      simp at h2
      subst h2
      simp [Mark.abstractOf, Mark.defaultOf]

/-- Witness for C4's supporting theorem at `d = PureDep(atom 0)`,
`p = AccessLevel(1)`. -/
theorem c4_invert_arity_witness :
    Mark.simpleMarker (Mark.pureD (Mark.atom 0) : Mark Nat) = true ∧
      ProPred.tildeOp (ProPred.access 1 : ProPred Nat) = none ∧
      (Mark.abstractOf
            (Mark.depD (Mark.atom 0)
              (ProPred.opAnd (ProPred.opAnd ProPred.noop (ProPred.access 1))
                (ProPred.opInv (ProPred.access 1))) : Mark Nat) =
          Mark.abstractOf (Mark.pureD (Mark.atom 0) : Mark Nat) ∧
        Mark.defaultOf
            (Mark.depD (Mark.atom 0)
              (ProPred.opAnd (ProPred.opAnd ProPred.noop (ProPred.access 1))
                (ProPred.opInv (ProPred.access 1))) : Mark Nat) =
          Mark.defaultOf (Mark.pureD (Mark.atom 0) : Mark Nat)) :=
  ⟨by decide,
    (c4_invert_arity_and_intended_roundtrip (Mark.pureD (Mark.atom 0))
        (ProPred.access 1) (by decide)).1,
    (c4_invert_arity_and_intended_roundtrip (Mark.pureD (Mark.atom 0))
        (ProPred.access 1) (by decide)).2
      (Mark.depD (Mark.atom 0) (ProPred.opAnd ProPred.noop (ProPred.access 1)))
      (Mark.depD (Mark.atom 0)
        (ProPred.opAnd (ProPred.opAnd ProPred.noop (ProPred.access 1))
          (ProPred.opInv (ProPred.access 1))))
      (by decide) (by decide)⟩

/-! ## Bound dependency records (src/xdi/_dependency.py)

`DepRec` models the attrs-generated `Dependency` base: fields `abstract`,
`scope`, `provider` (default `None`), `concrete`, plus the variant class tag
(Python `__class__`).  `BoundParams` data is carried opaquely in `params`.
Scopes compare by object identity (`Scope.__eq__` is `o is self`), so the
type `S` stands for scope identities; likewise `A`, `C`, `P` stand for
abstract keys, containers and providers with their Python equality. -/

inductive DepClass where
  | simpleDep | valueDep | factory | asyncFactory | awaitParamsFactory
  | awaitParamsAsyncFactory | singleton | asyncSingleton
  | awaitParamsSingleton | awaitParamsAsyncSingleton | partialDep
  | asyncPartial | awaitParamsPartial | awaitParamsAsyncPartial
  | callableDep | asyncCallable | awaitParamsCallable
  | awaitParamsAsyncCallable
deriving DecidableEq

structure DepRec (A S C P V B : Type) where
  cls : DepClass
  abstract : A
  scope : S
  provider : Option P
  concrete : V
  params : B
deriving DecidableEq

/-- External collaborators of `Dependency`: the `container` attribute of
providers and scopes (the files defining them are consulted opaquely), the
truthiness of a scope object (`NullScope.__bool__` is `False`), and the
Python hash of the `_v_ident` triple. -/
structure DepEnv (A S C P : Type) where
  provContainer : P → C
  scopeContainer : S → C
  scopeTruthy : S → Bool
  hashIdent : A → S → Option C → Nat

namespace DepRec

/-- `Dependency.container`: `if pro := self.provider or self.scope:
return pro.container` — the provider's container when a provider is set,
else the scope's container when the scope is truthy, else `None`. -/
def container {A S C P V B : Type} (env : DepEnv A S C P)
    (d : DepRec A S C P V B) : Option C :=
  match d.provider with
  | some p => some (env.provContainer p)
  | none =>
    if env.scopeTruthy d.scope then some (env.scopeContainer d.scope)
    else none

/-- `_v_ident`, computed at construction: `(abstract, scope, container)`. -/
def ident {A S C P V B : Type} (env : DepEnv A S C P)
    (d : DepRec A S C P V B) : A × S × Option C :=
  (d.abstract, d.scope, container env d)

/-- `Dependency.__eq__`: same concrete class compares `_v_ident` tuples
(scope slots by identity), a different `Dependency` subclass is unequal. -/
def pyEqD {A S C P V B : Type} [DecidableEq A] [DecidableEq S]
    [DecidableEq C] (env : DepEnv A S C P)
    (d1 d2 : DepRec A S C P V B) : Bool :=
  if d1.cls = d2.cls then ident env d1 = ident env d2 else false

/-- `Dependency.__hash__` returns `_ash = hash(_v_ident)`. -/
def pyHashD {A S C P V B : Type} (env : DepEnv A S C P)
    (d : DepRec A S C P V B) : Nat :=
  match ident env d with
  | (a, s, c) => env.hashIdent a s c

/-- The same record with different `concrete` payload and bound `params`. -/
def withPayload {A S C P V B : Type} (d : DepRec A S C P V B)
    (v : V) (b : B) : DepRec A S C P V B :=
  { d with concrete := v, params := b }

end DepRec

/-- C9: two `Dependency` records of the same variant class are equal exactly
when their `(abstract, scope, container)` triples are equal, equal records
hash alike, records of different scopes are never equal, and the `concrete`
payload and bound `params` play no part in equality. -/
theorem c9_dependency_identity {A S C P V B : Type} [DecidableEq A]
    [DecidableEq S] [DecidableEq C] (env : DepEnv A S C P)
    (d1 d2 : DepRec A S C P V B) :
    (d1.cls = d2.cls →
      (DepRec.pyEqD env d1 d2 = true ↔
        DepRec.ident env d1 = DepRec.ident env d2)) ∧
    (DepRec.pyEqD env d1 d2 = true →
      DepRec.pyHashD env d1 = DepRec.pyHashD env d2) ∧
    (d1.scope ≠ d2.scope → DepRec.pyEqD env d1 d2 = false) ∧
    (∀ (v1 v2 : V) (b1 b2 : B),
      DepRec.pyEqD env (DepRec.withPayload d1 v1 b1)
          (DepRec.withPayload d2 v2 b2) =
        DepRec.pyEqD env d1 d2) := by
  refine ⟨?_, ?_, ?_, ?_⟩
  · intro hcls
    simp [DepRec.pyEqD, hcls]
  · intro heq
    rw [DepRec.pyEqD] at heq
    by_cases hcls : d1.cls = d2.cls
    · simp only [hcls, if_true, decide_eq_true_eq] at heq
      rw [DepRec.pyHashD, DepRec.pyHashD, heq]
    · simp [hcls] at heq
  · intro hs
    rw [DepRec.pyEqD]
    by_cases hcls : d1.cls = d2.cls
    · simp only [hcls, if_true]
      have : DepRec.ident env d1 ≠ DepRec.ident env d2 := by
        intro h
        exact hs (congrArg (fun t => t.2.1) h)
      simp [this]
    · simp [hcls]
  · intro v1 v2 b1 b2
    rfl

/-- A concrete dependency environment and records over `Nat`-coded objects:
two `Factory` records in scope `1` differing only in payload, and one in
scope `2`. -/
def natDepEnv : DepEnv Nat Nat Nat Nat :=
  { provContainer := fun p => p, scopeContainer := fun s => s,
    scopeTruthy := fun _ => true, hashIdent := fun a _ _ => a }

def depRecA : DepRec Nat Nat Nat Nat Nat Nat :=
  ⟨DepClass.factory, 5, 1, none, 7, 0⟩

def depRecB : DepRec Nat Nat Nat Nat Nat Nat :=
  ⟨DepClass.factory, 5, 1, none, 9, 3⟩

def depRecC : DepRec Nat Nat Nat Nat Nat Nat :=
  ⟨DepClass.factory, 5, 2, none, 7, 0⟩

/-- Witness for C9 at two concrete records in the same class and scope with
different payloads, and a third in another scope. -/
theorem c9_dependency_identity_witness :
    (depRecA.cls = depRecB.cls) ∧
    (depRecA.scope ≠ depRecC.scope) ∧
    (DepRec.pyEqD natDepEnv depRecA depRecB = true ↔
      DepRec.ident natDepEnv depRecA = DepRec.ident natDepEnv depRecB) ∧
    (DepRec.pyEqD natDepEnv depRecA depRecC = false) :=
  ⟨rfl, by decide,
    (c9_dependency_identity natDepEnv depRecA depRecB).1 rfl,
    (c9_dependency_identity natDepEnv depRecA depRecC).2.2.1 (by decide)⟩

/-! ## `LookupErrorDependency` (src/xdi/_dependency.py) and
`InjectorLookupError` (src/xdi/__init__.py) -/

/-- `InjectorLookupError(abstract, scope)` — the attrs-generated `KeyError`
subclass carrying the unresolved abstract key and the scope. -/
inductive PyErr (A S : Type) where
  | injectorLookup (abstract : Option A) (scope : Option S) : PyErr A S

/-- `LookupErrorDependency`: slots `abstract` and `scope` (either may be
`None`; a falsy `NullScope` behaves like `None` under `or`). -/
structure LookupErrDep (A S : Type) where
  abstract : Option A
  scope : Option S

/-- The injector passed to `bind`, exposing its `scope` attribute. -/
structure InjRef (S : Type) where
  scope : Option S

/-- `LookupErrorDependency.bind`: `raise InjectorLookupError(self.abstract,
self.scope or injector.scope)` — it never returns a factory. -/
def LookupErrDep.bind {A S F : Type} (d : LookupErrDep A S)
    (injector : InjRef S) : Except (PyErr A S) F :=
  Except.error
    (PyErr.injectorLookup d.abstract
      (match d.scope with
        | some s => some s
        | none => injector.scope))

/-- C8: `LookupErrorDependency.bind` raises `InjectorLookupError` carrying
the wrapped abstract key and the record's scope (the injector's scope when
the record has none), and never returns a factory. -/
theorem c8_lookup_error_bind {A S F : Type} (d : LookupErrDep A S)
    (injector : InjRef S) :
    (LookupErrDep.bind d injector =
      (Except.error
          (PyErr.injectorLookup d.abstract
            (match d.scope with
              | some s => some s
              | none => injector.scope)) : Except (PyErr A S) F)) ∧
    (d.scope.isSome →
      (LookupErrDep.bind d injector : Except (PyErr A S) F) =
        Except.error (PyErr.injectorLookup d.abstract d.scope)) ∧
    (d.scope.isNone →
      (LookupErrDep.bind d injector : Except (PyErr A S) F) =
        Except.error (PyErr.injectorLookup d.abstract injector.scope)) ∧
    ∀ f : F, LookupErrDep.bind d injector ≠ Except.ok f := by
  refine ⟨rfl, ?_, ?_, ?_⟩
  · intro hs
    cases h : d.scope with
    | some s => simp [LookupErrDep.bind, h]
    | none => simp [h] at hs
  · intro hs
    cases h : d.scope with
    | some s => simp [h] at hs
    | none => simp [LookupErrDep.bind, h]
  · intro f h
    simp [LookupErrDep.bind] at h

/-- Witness for C8 at a record without a scope bound through an injector in
scope `3`. -/
theorem c8_lookup_error_bind_witness :
    (Option.isNone (none : Option Nat) = true) ∧
    ((LookupErrDep.bind ⟨some 7, none⟩ ⟨some 3⟩ : Except (PyErr Nat Nat) Nat) =
      Except.error (PyErr.injectorLookup (some 7) (some 3))) :=
  ⟨rfl,
    (c8_lookup_error_bind (⟨some 7, none⟩ : LookupErrDep Nat Nat)
      (⟨some 3⟩ : InjRef Nat) (F := Nat)).2.2.1 rfl⟩

/-! ## Parameter plans and factory closures (src/xdi/_dependency.py)

`BoundParams`, `_PositionalArgs`, `_PositionalDeps` and `_KeywordDeps` live
in `_functools.py`, which is not under `src/`; the container below is
modelled from the spec: an ordered list of positional `Arg`s holding either
a literal value or a dependency key, keyword dependency edges, and literal
keyword values, with precomputed counters `_pos_vals`/`_pos_deps`.  Keyword
names are coded as `Nat`. -/

inductive ArgSlot (V K : Type) where
  | value (v : V) : ArgSlot V K
  | dep (k : K) : ArgSlot V K
deriving DecidableEq

/-- Modelled from the spec: the `BoundParams` record of `_functools.py`
(ordered positional slots, keyword dependency edges, literal keyword
values). -/
structure BoundParamsM (V K : Type) where
  args : List (ArgSlot V K)
  kwds : List (Nat × K)
  vals : List (Nat × V)
deriving DecidableEq

namespace BoundParamsM

/-- `_pos_vals`: number of positional slots holding literal values. -/
def posVals {V K : Type} (p : BoundParamsM V K) : Nat :=
  (p.args.filter (fun a => match a with | ArgSlot.value _ => true | _ => false)).length

/-- `_pos_deps`: number of positional slots holding dependency keys. -/
def posDeps {V K : Type} (p : BoundParamsM V K) : Nat :=
  (p.args.filter (fun a => match a with | ArgSlot.dep _ => true | _ => false)).length

/-- `Factory.resolve_args`: dispatches on the counters to one of three
sequence forms — mixed `_PositionalArgs` of `(value, None)` /
`(None, injector[dep])` pairs, `_PositionalDeps` of resolved dependencies,
or a plain tuple of values.  The sequence classes are in the absent
`_functools.py`; modelled from the spec, each branch yields per slot the
literal value or the injector's value for the dependency key. -/
def resolveArgs {V K : Type} (inj : K → V) (p : BoundParamsM V K) : List V :=
  if p.args.isEmpty then []
  else if 0 < p.posVals ∧ 0 < p.posDeps then
    p.args.map (fun a => match a with
      | ArgSlot.value v => v
      | ArgSlot.dep k => inj k)
  else if 0 < p.posDeps then
    p.args.map (fun a => match a with
      | ArgSlot.value v => v
      | ArgSlot.dep k => inj k)
  else
    p.args.map (fun a => match a with
      | ArgSlot.value v => v
      | ArgSlot.dep k => inj k)

/-- `Factory.resolve_kwargs`: `_KeywordDeps((p.key, injector[p.dependency])
for p in self.params.kwds)`. -/
def resolveKwargs {V K : Type} (inj : K → V) (p : BoundParamsM V K) :
    List (Nat × V) :=
  p.kwds.map (fun nk => (nk.1, inj nk.2))

end BoundParamsM

/-- First-match association-list lookup — the semantics of reading a Python
dict built by the keyword-assembly below (which never repeats a key on
defined behaviour). -/
def dlookup {V : Type} : List (Nat × V) → Nat → Option V
  | [], _ => none
  | nv :: l, n => if nv.1 = n then some nv.2 else dlookup l n

/-- Python `d1 | d2` on dicts: keys of `d1` in order with values overridden
by `d2`, then the keys only in `d2` in order. -/
def dictUnion {V : Type} (d1 d2 : List (Nat × V)) : List (Nat × V) :=
  d1.map (fun nv => (nv.1, (dlookup d2 nv.1).getD nv.2)) ++
    d2.filter (fun nv => (dlookup d1 nv.1).isNone)

/-- Modelled from the spec: `_KeywordDeps.skip(kw)` (absent `_functools.py`)
drops the planned keyword dependency entries whose names appear in the
call-site keywords. -/
def skipKeys {V : Type} (planned call : List (Nat × V)) : List (Nat × V) :=
  planned.filter (fun nv => (dlookup call nv.1).isNone)

/-! ## `Singleton.bind` (src/xdi/_dependency.py) -/

/-- The captured state of the thunk returned by `Singleton.bind`: the
`value` cell (`Missing` is `none`) and, for counting, how many times the
planned factory closure `func` has been invoked.  The per-key `Lock` taken
when `thread_safe` only serialises the double-checked block; the sequential
semantics below is the behaviour under the lock. -/
structure SingletonState (V : Type) where
  value : Option V
  calls : Nat
deriving DecidableEq

/-- One invocation of the thunk: return the published value if present;
otherwise (acquire the lock, re-check Missing,) invoke `func`, publish and
return.  `func` is the closure built by `Singleton.factory(injector)`; it is
indexed by invocation count so that a factory with side effects would be
observably called more than once if the memoization failed. -/
def singletonThunk {V : Type} (func : Nat → V) (st : SingletonState V) :
    V × SingletonState V :=
  match st.value with
  | some v => (v, st)
  | none =>
    let v := func st.calls
    (v, { value := some v, calls := st.calls + 1 })

/-- `n` successive invocations of the thunk, collecting the returned
values. -/
def singletonRun {V : Type} (func : Nat → V) (st : SingletonState V) :
    Nat → List V × SingletonState V
  | 0 => ([], st)
  | Nat.succ n =>
    let r := singletonThunk func st
    let rest := singletonRun func r.2 n
    (r.1 :: rest.1, rest.2)

theorem singletonRun_published {V : Type} (func : Nat → V) (v : V) (c : Nat) :
    ∀ n, singletonRun func ⟨some v, c⟩ n =
      (List.replicate n v, ⟨some v, c⟩)
  | 0 => rfl
  | Nat.succ n => by
    simp [singletonRun, singletonThunk, singletonRun_published func v c n,
      List.replicate]

/-- C6: the thunk returned by `Singleton.bind`, starting from the fresh
`Missing` state, invokes the underlying factory closure exactly once over
any positive number of calls, and every call returns the value computed by
that single invocation. -/
theorem c6_singleton_single_flight {V : Type} (func : Nat → V) (n : Nat)
    (hn : 0 < n) :
    (singletonRun func ⟨none, 0⟩ n).2.calls = 1 ∧
      (singletonRun func ⟨none, 0⟩ n).1 = List.replicate n (func 0) := by
  cases n with
  | zero => exact absurd hn (by simp)
  | succ m =>
    have h1 : singletonThunk func (⟨none, 0⟩ : SingletonState V) =
        (func 0, ⟨some (func 0), 1⟩) := rfl
    constructor
    · simp [singletonRun, h1, singletonRun_published]
    · simp [singletonRun, h1, singletonRun_published, List.replicate]

/-- Witness for C6: five invocations of a thunk over the factory
`fun k => 100 + k` make exactly one factory call and all return `100`. -/
theorem c6_singleton_single_flight_witness :
    (0 < 5) ∧
      ((singletonRun (fun k => 100 + k) ⟨none, 0⟩ 5).2.calls = 1 ∧
        (singletonRun (fun k => 100 + k) ⟨none, 0⟩ 5).1 =
          List.replicate 5 100) :=
  ⟨by decide, c6_singleton_single_flight (fun k => 100 + k) 5 (by decide)⟩

/-! ## `Partial.factory` / `Partial.bind` (src/xdi/_dependency.py) -/

/-- The closure returned by `Partial.bind` (= `Partial.factory(injector)`):
`args`, `kwargs` and `vals` are resolved once; the returned `make(*a, **kw)`
calls `func(*args, *a, **(vals | kw), **kwargs.skip(kw))`.  The planned
function receives the keyword assembly as a dict; here it is an association
list read by first match. -/
def partialClosure {V K R : Type} (inj : K → V) (p : BoundParamsM V K)
    (func : List V → List (Nat × V) → R) (a : List V)
    (kw : List (Nat × V)) : R :=
  func (BoundParamsM.resolveArgs inj p ++ a)
    (dictUnion p.vals kw ++ skipKeys (BoundParamsM.resolveKwargs inj p) kw)

theorem dlookup_append {V : Type} (l1 l2 : List (Nat × V)) (n : Nat) :
    dlookup (l1 ++ l2) n =
      (match dlookup l1 n with
        | some v => some v
        | none => dlookup l2 n) := by
  induction l1 with
  | nil => simp [dlookup]
  | cons x l1 ih =>
    by_cases h : x.1 = n
    · simp [dlookup, h]
    · simp [dlookup, h, ih]

theorem dlookup_map_keys {V : Type} (d : List (Nat × V))
    (g : Nat → V → V) (n : Nat) :
    dlookup (d.map (fun nv => (nv.1, g nv.1 nv.2))) n =
      (dlookup d n).map (g n) := by
  induction d with
  | nil => simp [dlookup]
  | cons x d ih =>
    by_cases h : x.1 = n
    · subst h
      simp [dlookup]
    · simp [dlookup, h, ih]

theorem dlookup_filter_keyPred {V : Type} (d : List (Nat × V))
    (q : Nat → Bool) (n : Nat) (hq : q n = true) :
    dlookup (d.filter (fun nv => q nv.1)) n = dlookup d n := by
  induction d with
  | nil => simp
  | cons x d ih =>
    by_cases h : x.1 = n
    · subst h
      simp [List.filter, hq, dlookup]
    · rw [List.filter]
      cases hx : q x.1 with
      | true => simp [dlookup, h, ih]
      | false => simp [dlookup, h, ih]

theorem dlookup_filter_keyGone {V : Type} (d : List (Nat × V))
    (q : Nat → Bool) (n : Nat) (hq : q n = false) :
    dlookup (d.filter (fun nv => q nv.1)) n = none := by
  induction d with
  | nil => simp [dlookup]
  | cons x d ih =>
    by_cases h : x.1 = n
    · subst h
      rw [List.filter]
      simp only [hq]
      exact ih
    · rw [List.filter]
      cases hx : q x.1 with
      | true => simp [dlookup, h, ih]
      | false => exact ih

theorem dlookup_dictUnion {V : Type} (d1 d2 : List (Nat × V)) (n : Nat) :
    dlookup (dictUnion d1 d2) n =
      (match dlookup d2 n with
        | some v => some v
        | none => dlookup d1 n) := by
  rw [dictUnion, dlookup_append]
  rw [dlookup_map_keys d1 (fun m v => (dlookup d2 m).getD v) n]
  cases h1 : dlookup d1 n with
  | some v =>
    cases h2 : dlookup d2 n with
    | some w => simp
    | none => simp
  | none =>
    simp only [Option.map_none']
    rw [dlookup_filter_keyPred d2 (fun m => (dlookup d1 m).isNone) n
      (by simp [h1])]
    cases h2 : dlookup d2 n with
    | some w => simp
    | none => simp

/-- C7: the `Partial` closure calls the planned function with the planned
positional arguments first and the call-site positionals after them, and
its keyword assembly resolves each name to the call-site keyword if
present, else the planned literal value, else the injected value of the
planned keyword dependency edge of that name (call-site keywords override
planned literals and suppress same-named planned edges). -/
theorem c7_partial_merges_call_site {V K R : Type} (inj : K → V)
    (p : BoundParamsM V K) (func : List V → List (Nat × V) → R)
    (a : List V) (kw : List (Nat × V)) :
    (partialClosure inj p func a kw =
      func (BoundParamsM.resolveArgs inj p ++ a)
        (dictUnion p.vals kw ++
          skipKeys (BoundParamsM.resolveKwargs inj p) kw)) ∧
    (∀ n, dlookup
        (dictUnion p.vals kw ++
          skipKeys (BoundParamsM.resolveKwargs inj p) kw) n =
      (match dlookup kw n with
        | some v => some v
        | none =>
          match dlookup p.vals n with
          | some v => some v
          | none => dlookup (BoundParamsM.resolveKwargs inj p) n)) := by
  refine ⟨rfl, fun n => ?_⟩
  rw [dlookup_append, dlookup_dictUnion]
  cases hkw : dlookup kw n with
  | some v =>
    rw [skipKeys, dlookup_filter_keyGone (BoundParamsM.resolveKwargs inj p)
      (fun m => (dlookup kw m).isNone) n (by simp [hkw])]
  | none =>
    rw [skipKeys, dlookup_filter_keyPred (BoundParamsM.resolveKwargs inj p)
      (fun m => (dlookup kw m).isNone) n (by simp [hkw])]

/-! ## Scope resolution (src/xdi/scopes.py)

The scope chain is a list of containers (`self.container` of each scope in
the `parent` chain; the empty list is `NullScope`), and the mutable per-
scope state — the `_resolved` memo (a `defaultdict` of per-key dicts keyed
by `(container, locality)`) and the `_dependencies` dict — is threaded as a
list of `ScopeSt` aligned with the chain.  Containers carry their `parent`
pointer; container objects compare by identity, modelled by structural
equality of `CT`.  `Dependency` objects are coded by an id plus their
truthiness (`LookupErrorDependency.__bool__` is `False`; other dependencies
are truthy).  Keys are plain injectables, `Dependency` objects, `Provider`
objects, or slices (of which `__getitem__` only reads `key.start`). -/

inductive CT where
  | root (cid : Nat) : CT
  | child (cid : Nat) (parent : CT) : CT
deriving DecidableEq

def CT.parent : CT → Option CT
  | CT.root _ => none
  | CT.child _ p => some p

/-- `ContainerContext` (imported from the absent `containers.py`; the spec
gives the two localities `GLOBAL` and `LOCAL`). -/
inductive Loc where
  | GLOBAL | LOCAL
deriving DecidableEq

structure DepV where
  did : Nat
  truthy : Bool
deriving DecidableEq

inductive Key where
  | inj (n : Nat) : Key
  | dep (d : DepV) : Key
  | prov (pid : Nat) : Key
  | sl (start : Key) : Key
deriving DecidableEq

/-- The collaborators of `Scope._resolve_dependency` and `__missing__`.

* `getAll c loc k` — `container.get_registry(loc).get_all(key)` (the absent
  `containers.py`): the candidate providers for `k`, priority-descending.
* `origin` — `typing.get_origin`.
* `compose p k rest` — `pros[0].compose(self, key, *pros[1:])`.  Modelled
  from the spec: provider implementations live in the absent
  `providers.py`; §4.2 gives the compose contract
  `compose(scope, key, *overrides) → Dependency | None`, modelled as a pure
  function of the winning provider, the key and the overrides.
* `containerContains c k` — `key in self.container` (absent
  `containers.py`), used by `Scope.__contains__`. -/
structure REnv where
  getAll : CT → Loc → Key → List Nat
  origin : Key → Option Key
  compose : Nat → Key → List Nat → Option DepV
  containerContains : CT → Key → Bool

/-- First-match association lookup (a Python dict read). -/
def alookup {α β : Type} [DecidableEq α] : List (α × β) → α → Option β
  | [], _ => none
  | kv :: l, k => if kv.1 = k then some kv.2 else alookup l k

/-- The per-scope mutable state: `_resolved` (outer dict by key — presence
is created by the `defaultdict` access — with inner dicts keyed by
`(container, locality)`) and `_dependencies`. -/
structure ScopeSt where
  resolved : List (Key × List ((CT × Loc) × DepV))
  deps : List (Key × Option DepV)
deriving DecidableEq

def emptySt : ScopeSt := ⟨[], []⟩

def stHead : List ScopeSt → ScopeSt
  | [] => emptySt
  | s :: _ => s

def stTail : List ScopeSt → List ScopeSt
  | [] => []
  | _ :: t => t

def setHead (sts : List ScopeSt) (s : ScopeSt) : List ScopeSt :=
  match sts with
  | [] => [s]
  | _ :: t => s :: t

def stAt (sts : List ScopeSt) : Nat → ScopeSt
  | 0 => stHead sts
  | Nat.succ i => stAt (stTail sts) i

namespace Resolved

/-- `key in self._resolved`. -/
def keyIn (res : List (Key × List ((CT × Loc) × DepV))) (k : Key) : Bool :=
  (alookup res k).isSome

/-- The `defaultdict` access `self._resolved[key]`: materialise an empty
inner dict for an absent key. -/
def ensure (res : List (Key × List ((CT × Loc) × DepV))) (k : Key) :
    List (Key × List ((CT × Loc) × DepV)) :=
  if keyIn res k then res else res ++ [(k, [])]

/-- `ident in resolved` / `resolved[ident]`. -/
def mlook (res : List (Key × List ((CT × Loc) × DepV))) (k : Key) (c : CT)
    (loc : Loc) : Option DepV :=
  match alookup res k with
  | some m => alookup m (c, loc)
  | none => none

/-- `resolved.setdefault(ident, pro)` on the inner dict of `k` (inserting
only when absent). -/
def msetdefault (res : List (Key × List ((CT × Loc) × DepV))) (k : Key)
    (c : CT) (loc : Loc) (d : DepV) :
    List (Key × List ((CT × Loc) × DepV)) :=
  res.map (fun kv =>
    if kv.1 = k then
      (kv.1,
        if (alookup kv.2 (c, loc)).isSome then kv.2
        else kv.2 ++ [((c, loc), d)])
    else kv)

/-- `resolved[ident] = dp` on the inner dict of `k` (update or append). -/
def massign (res : List (Key × List ((CT × Loc) × DepV))) (k : Key)
    (c : CT) (loc : Loc) (d : DepV) :
    List (Key × List ((CT × Loc) × DepV)) :=
  if keyIn res k then
    res.map (fun kv =>
      if kv.1 = k then
        (kv.1,
          if (alookup kv.2 (c, loc)).isSome then
            kv.2.map (fun pv => if pv.1 = (c, loc) then (pv.1, d) else pv)
          else kv.2 ++ [((c, loc), d)])
      else kv)
  else res ++ [(k, [((c, loc), d)])]

end Resolved

/-- Lines 98–104: candidate providers — `[key]` when the key is itself a
`Provider`, else the registry's entries for the key, falling back to its
generic origin. -/
def prosOf (env : REnv) (c : CT) (loc : Loc) (k : Key) : List Nat :=
  match k with
  | Key.prov pid => [pid]
  | _ =>
    let ps := env.getAll c loc k
    if ps.isEmpty then
      match env.origin k with
      | some o => env.getAll c loc o
      | none => []
    else ps

/-- The pure outcome of the candidate/compose step (lines 98–106) at one
`(container, locality)` — a function of the environment only. -/
def composePure (env : REnv) (c : CT) (loc : Loc) (k : Key) : Option DepV :=
  match prosOf env c loc k with
  | [] => none
  | p :: rest => env.compose p k rest

/-- Lines 93–107 of `_resolve_dependency` at one container: touch the
`defaultdict`, return a cached `ident` hit, else try the candidates; a
truthy composed dependency is stored with `setdefault` and returned, a
falsy one (`if pro := …`) falls through unmemoized. -/
def resolveTry (env : REnv) (res : List (Key × List ((CT × Loc) × DepV)))
    (k : Key) (c : CT) (loc : Loc) :
    Option DepV × List (Key × List ((CT × Loc) × DepV)) :=
  let res1 := Resolved.ensure res k
  match Resolved.mlook res1 k c loc with
  | some d => (some d, res1)
  | none =>
    match composePure env c loc k with
    | some d =>
      if d.truthy then (some d, Resolved.msetdefault res1 k c loc d)
      else (none, res1)
    | none => (none, res1)

/-- The purely local part of `_resolve_dependency` (lines 92–116 without
the walk to the parent scope): the attempt at the resolved container
followed — when that container is foreign and the locality `GLOBAL` — by
the retry at `self.container` (lines 109–112, storing a hit under the
foreign ident with a plain assignment). -/
def resolveLocal (env : REnv) (st : ScopeSt) (k : Key) (carg : Option CT)
    (loc : Loc) (self : CT) :
    Option DepV × List (Key × List ((CT × Loc) × DepV)) :=
  let container := carg.getD self
  let r1 := resolveTry env st.resolved k container loc
  match r1.1 with
  | some d => (some d, r1.2)
  | none =>
    if container = self ∨ loc = Loc.LOCAL then (none, r1.2)
    else
      let t := resolveTry env r1.2 k self loc
      match t.1 with
      | some d => (some d, Resolved.massign t.2 k container loc d)
      | none => (none, t.2)

/-- `Scope._resolve_dependency` over the scope chain.  `get_container` is a
method of the absent `containers.py`; modelled from the spec (§4.3 gives
`container=self.container` as the default), it resolves `None` to
`self.container`.  The recursive call of line 110
(`self._resolve_dependency(key, None, loc, only_self=True)`) resolves its
container argument back to `self.container`, for which the guard of
line 109 is false and the trailing walk is cut off by `only_self`, so that
call is exactly the lines 93–107 attempt at `self.container`; it is
embedded as such inside `resolveLocal`. -/
def resolveDep (env : REnv) :
    List CT → List ScopeSt → Key → Option CT → Loc → Bool →
    Option DepV × List ScopeSt
  | [], sts, _, _, _, _ => (none, sts)
  | self :: ps, sts, k, carg, loc, onlySelf =>
    let container := carg.getD self
    let lr := resolveLocal env (stHead sts) k carg loc self
    match lr.1 with
    | some d => (some d, setHead sts { stHead sts with resolved := lr.2 })
    | none =>
      if container.parent = none ∧ loc = Loc.LOCAL then
        (none, setHead sts { stHead sts with resolved := lr.2 })
      else if onlySelf then
        (none, setHead sts { stHead sts with resolved := lr.2 })
      else
        let pr := resolveDep env ps (stTail sts) k container.parent loc false
        (pr.1, { stHead sts with resolved := lr.2 } :: pr.2)

/-- `Scope.is_provided` over the chain (`NullScope.is_provided` is
`False`); `key in self` is `key in self._resolved or key in self.container
or key in self._dependencies`. -/
def isProvided (env : REnv) :
    List CT → List ScopeSt → Key → Bool → Bool
  | [], _, _, _ => false
  | self :: ps, sts, k, onlySelf =>
    (match k with | Key.prov _ => true | _ => false) ||
    (Resolved.keyIn (stHead sts).resolved k ||
      env.containerContains self k ||
      (alookup (stHead sts).deps k).isSome) ||
    (!onlySelf && isProvided env ps (stTail sts) k false)

def truthyOpt : Option DepV → Bool
  | some d => d.truthy
  | none => false

/-- `self[dep]` for a freshly resolved `Dependency`: `__getitem__` on a
`Dependency` key returns the `_dependencies` entry or, through
`__missing__`, `self._dependencies.setdefault(key, key)`. -/
def lookupDepKey (st : ScopeSt) (d : DepV) : Option DepV × ScopeSt :=
  match alookup st.deps (Key.dep d) with
  | some v => (v, st)
  | none => (some d, { st with deps := st.deps ++ [(Key.dep d, some d)] })

/-- The resolve-and-cache arm of `Scope.__missing__` for keys that are not
`Dependency` objects: `_resolve_dependency(key)` with its defaults —
container `None`, locality `GLOBAL`, `only_self=True`; a truthy resolution
is returned through `self[dep]`; otherwise, when `is_provided(key)` (which
holds after the resolver touched `self._resolved[key]`), `None` is cached
in `_dependencies`; otherwise `None` is returned without caching. -/
def missingResolve (env : REnv) (scopes : List CT) (sts : List ScopeSt)
    (k : Key) : Option DepV × List ScopeSt :=
  let rd := resolveDep env scopes sts k none Loc.GLOBAL true
  if truthyOpt rd.1 then
    match rd.1 with
    | some d =>
      let t := lookupDepKey (stHead rd.2) d
      (t.1, setHead rd.2 t.2)
    | none => (none, rd.2)
  else if isProvided env scopes rd.2 k false then
    (none,
      setHead rd.2
        { stHead rd.2 with deps := (stHead rd.2).deps ++ [(k, none)] })
  else (none, rd.2)

/-- `Scope.__missing__`: a `Dependency` key is setdefault-ed to itself
(`self._dependencies.setdefault(key, key)`); every other kind of key goes
through the resolve arm. -/
def missingStep (env : REnv) (scopes : List CT) (sts : List ScopeSt)
    (k : Key) : Option DepV × List ScopeSt :=
  match k with
  | Key.dep d =>
    match alookup (stHead sts).deps (Key.dep d) with
    | some v => (v, sts)
    | none =>
      (some d,
        setHead sts
          { stHead sts with
              deps := (stHead sts).deps ++ [(Key.dep d, some d)] })
  | Key.inj n => missingResolve env scopes sts (Key.inj n)
  | Key.prov p => missingResolve env scopes sts (Key.prov p)
  | Key.sl s => missingResolve env scopes sts (Key.sl s)

/-- The non-slice arm of `Scope.__getitem__`: the `_dependencies` entry or
`__missing__`. -/
def getitemBase (env : REnv) (scopes : List CT) (sts : List ScopeSt)
    (k : Key) : Option DepV × List ScopeSt :=
  match alookup (stHead sts).deps k with
  | some v => (v, sts)
  | none => missingStep env scopes sts k

/-- `Scope.__getitem__` over the chain (`NullScope.__getitem__` is `None`):
a slice key is `self[key.start] or self.parent[key]`; otherwise the
`_dependencies` entry or `__missing__`. -/
def getitem (env : REnv) :
    List CT → List ScopeSt → Key → Option DepV × List ScopeSt
  | [], sts, _ => (none, sts)
  | self :: ps, sts, k =>
    match k with
    | Key.sl s =>
      let r1 := getitem env (self :: ps) sts s
      if truthyOpt r1.1 then r1
      else
        let r2 := getitem env ps (stTail r1.2) k
        (r2.1, stHead r1.2 :: r2.2)
    | Key.inj n => getitemBase env (self :: ps) sts (Key.inj n)
    | Key.dep d => getitemBase env (self :: ps) sts (Key.dep d)
    | Key.prov p => getitemBase env (self :: ps) sts (Key.prov p)
termination_by scopes _ k => (scopes.length, sizeOf k)
decreasing_by
  all_goals simp_wf
  · exact Prod.Lex.right _ (by simp)
  · exact Prod.Lex.left _ _ (by simp)

/-- C5: the locality discipline of `_resolve_dependency`.  (1) Whenever
`only_self` is set — as it is for every resolution started by `scope[k]` —
or the walk has reached a parentless container with locality `LOCAL`, the
result is exactly the purely local two-attempt result: the parent scope is
never consulted, and in particular a `LOCAL` resolution at a parentless
container stops (returns no dependency) when the local attempts fail.
(2) The parent scope is consulted only when `only_self` is false (and the
LOCAL stop did not fire), via
`self.parent._resolve_dependency(key, container.parent, locality,
only_self=False)`. -/
theorem c5_local_never_escapes (env : REnv) (self : CT) (ps : List CT)
    (sts : List ScopeSt) (k : Key) (carg : Option CT) (loc : Loc)
    (onlySelf : Bool) :
    ((onlySelf = true ∨ ((carg.getD self).parent = none ∧ loc = Loc.LOCAL)) →
      (resolveDep env (self :: ps) sts k carg loc onlySelf).1 =
        (resolveLocal env (stHead sts) k carg loc self).1) ∧
    (onlySelf = false →
      ¬((carg.getD self).parent = none ∧ loc = Loc.LOCAL) →
      (resolveLocal env (stHead sts) k carg loc self).1 = none →
      (resolveDep env (self :: ps) sts k carg loc false).1 =
        (resolveDep env ps (stTail sts) k ((carg.getD self).parent) loc
          false).1) := by
  constructor
  · intro h
    rw [resolveDep]
    cases hlr : (resolveLocal env (stHead sts) k carg loc self).1 with
    | some d => simp [hlr]
    | none =>
      rcases h with h | h
      · subst h
        by_cases hstop : (carg.getD self).parent = none ∧ loc = Loc.LOCAL <;>
          simp [hlr, hstop]
      · simp [hlr, h]
  · intro hos hstop hlr
    subst hos
    rw [resolveDep]
    simp [hlr, hstop]

/-- A concrete resolution environment with an empty registry. -/
def emptyREnv : REnv :=
  { getAll := fun _ _ _ => [], origin := fun _ => none,
    compose := fun _ _ _ => none, containerContains := fun _ _ => false }

/-- Witness for C5: a chain of two scopes over a parentless container; a
`LOCAL` resolution stops locally even with `only_self=False`, and a
`GLOBAL` one with `only_self=False` delegates to the parent scope. -/
theorem c5_local_never_escapes_witness :
    ((false = true ∨ (((none : Option CT).getD (CT.root 0)).parent = none ∧
        Loc.LOCAL = Loc.LOCAL)) ∧
      (resolveDep emptyREnv [CT.root 0, CT.root 1] [emptySt, emptySt]
          (Key.inj 7) none Loc.LOCAL false).1 =
        (resolveLocal emptyREnv (stHead [emptySt, emptySt]) (Key.inj 7) none
          Loc.LOCAL (CT.root 0)).1) ∧
    ((false = false) ∧
      ¬(((none : Option CT).getD (CT.root 0)).parent = none ∧
          Loc.GLOBAL = Loc.LOCAL) ∧
      (resolveLocal emptyREnv (stHead [emptySt, emptySt]) (Key.inj 7) none
          Loc.GLOBAL (CT.root 0)).1 = none ∧
      (resolveDep emptyREnv [CT.root 0, CT.root 1] [emptySt, emptySt]
          (Key.inj 7) none Loc.GLOBAL false).1 =
        (resolveDep emptyREnv [CT.root 1] (stTail [emptySt, emptySt])
          (Key.inj 7) ((none : Option CT).getD (CT.root 0)).parent Loc.GLOBAL
          false).1) :=
  ⟨⟨Or.inr (by decide),
      (c5_local_never_escapes emptyREnv (CT.root 0) [CT.root 1]
          [emptySt, emptySt] (Key.inj 7) none Loc.LOCAL false).1
        (Or.inr (by decide))⟩,
    ⟨rfl, by decide, by decide,
      (c5_local_never_escapes emptyREnv (CT.root 0) [CT.root 1]
          [emptySt, emptySt] (Key.inj 7) none Loc.GLOBAL false).2
        rfl (by decide) (by decide)⟩⟩

/-! ### Association and memo-dict lemmas for the cache analysis -/

theorem alookup_append {α β : Type} [DecidableEq α]
    (l1 l2 : List (α × β)) (k : α) :
    alookup (l1 ++ l2) k =
      (match alookup l1 k with
        | some v => some v
        | none => alookup l2 k) := by
  induction l1 with
  | nil => simp [alookup]
  | cons x l1 ih =>
    by_cases h : x.1 = k
    · simp [alookup, h]
    · simp [alookup, h, ih]

theorem alookup_append_self {α β : Type} [DecidableEq α]
    (l : List (α × β)) (k : α) (v : β) (h : alookup l k = none) :
    alookup (l ++ [(k, v)]) k = some v := by
  rw [alookup_append, h]
  simp [alookup]

theorem alookup_append_pres {α β : Type} [DecidableEq α]
    (l l2 : List (α × β)) (k : α) (v : β) (h : alookup l k = some v) :
    alookup (l ++ l2) k = some v := by
  rw [alookup_append, h]

theorem alookup_append_one_char {α β : Type} [DecidableEq α]
    (l : List (α × β)) (k0 k : α) (v0 v : β)
    (h : alookup (l ++ [(k0, v0)]) k = some v) :
    alookup l k = some v ∨ (k = k0 ∧ v = v0) := by
  rw [alookup_append] at h
  cases hl : alookup l k with
  | some w =>
    rw [hl] at h
    exact Or.inl h
  | none =>
    rw [hl] at h
    simp only [alookup] at h
    by_cases hk : k0 = k
    · simp only [hk, if_true] at h
      exact Or.inr ⟨hk.symm, (Option.some_inj.mp h).symm⟩
    · simp [hk] at h

theorem alookup_map_snd {α β : Type} [DecidableEq α] (l : List (α × β))
    (g : α → β → β) (k : α) :
    alookup (l.map (fun kv => (kv.1, g kv.1 kv.2))) k =
      (alookup l k).map (g k) := by
  induction l with
  | nil => simp [alookup]
  | cons x l ih =>
    by_cases h : x.1 = k
    · subst h
      simp [alookup]
    · simp [alookup, h, ih]

namespace Resolved

theorem keyIn_isSome (res : List (Key × List ((CT × Loc) × DepV))) (k : Key) :
    keyIn res k = (alookup res k).isSome := rfl

theorem alookup_ensure (res : List (Key × List ((CT × Loc) × DepV)))
    (k0 k : Key) :
    alookup (ensure res k0) k =
      (match alookup res k with
        | some m => some m
        | none => if k = k0 then some [] else none) := by
  rw [ensure]
  by_cases h : keyIn res k0 = true
  · rw [if_pos h]
    cases hh : alookup res k with
    | some m => rfl
    | none =>
      by_cases hk : k = k0
      · subst hk
        rw [keyIn_isSome, hh] at h
        simp at h
      · simp [hk]
  · rw [if_neg h, alookup_append]
    cases hh : alookup res k with
    | some m => rfl
    | none =>
      simp only [alookup]
      by_cases hk : k0 = k
      · simp [hk]
      · rw [if_neg hk, if_neg (fun hx : k = k0 => hk hx.symm)]

theorem mlook_ensure (res : List (Key × List ((CT × Loc) × DepV)))
    (k0 k : Key) (c : CT) (loc : Loc) :
    mlook (ensure res k0) k c loc = mlook res k c loc := by
  rw [mlook, mlook, alookup_ensure res k0 k]
  cases hh : alookup res k with
  | some m => rfl
  | none =>
    by_cases hk : k = k0 <;> simp [hk, alookup]

theorem keyIn_ensure_self (res : List (Key × List ((CT × Loc) × DepV)))
    (k : Key) : keyIn (ensure res k) k = true := by
  rw [keyIn_isSome, alookup_ensure res k k]
  cases hh : alookup res k with
  | some m => rfl
  | none => simp

theorem keyIn_ensure_mono (res : List (Key × List ((CT × Loc) × DepV)))
    (k0 k : Key) (h : keyIn res k = true) :
    keyIn (ensure res k0) k = true := by
  rw [keyIn_isSome, alookup_ensure res k0 k]
  rw [keyIn_isSome] at h
  cases hh : alookup res k with
  | some m => rfl
  | none => rw [hh] at h; simp at h

/-- `msetdefault` as a key-preserving map over the outer dict. -/
theorem alookup_msetdefault (res : List (Key × List ((CT × Loc) × DepV)))
    (k : Key) (c : CT) (loc : Loc) (d : DepV) (k0 : Key) :
    alookup (msetdefault res k c loc d) k0 =
      (alookup res k0).map (fun m =>
        if k0 = k then
          (if (alookup m (c, loc)).isSome then m else m ++ [((c, loc), d)])
        else m) := by
  rw [msetdefault]
  have hmap : res.map (fun kv =>
      if kv.1 = k then
        (kv.1,
          if (alookup kv.2 (c, loc)).isSome then kv.2
          else kv.2 ++ [((c, loc), d)])
      else kv) =
    res.map (fun kv => (kv.1,
      if kv.1 = k then
        (if (alookup kv.2 (c, loc)).isSome then kv.2
         else kv.2 ++ [((c, loc), d)])
      else kv.2)) := by
    apply List.map_congr_left
    intro kv _
    by_cases h : kv.1 = k <;> simp [h]
  rw [hmap, alookup_map_snd res (fun a m =>
    if a = k then
      (if (alookup m (c, loc)).isSome then m else m ++ [((c, loc), d)])
    else m) k0]

theorem keyIn_msetdefault (res : List (Key × List ((CT × Loc) × DepV)))
    (k : Key) (c : CT) (loc : Loc) (d : DepV) (k0 : Key) :
    keyIn (msetdefault res k c loc d) k0 = keyIn res k0 := by
  rw [keyIn_isSome, keyIn_isSome, alookup_msetdefault]
  cases alookup res k0 <;> rfl

theorem mlook_msetdefault_pres (res : List (Key × List ((CT × Loc) × DepV)))
    (k : Key) (c : CT) (loc : Loc) (d : DepV) (k0 : Key) (c0 : CT)
    (l0 : Loc) (d0 : DepV) (h : mlook res k0 c0 l0 = some d0) :
    mlook (msetdefault res k c loc d) k0 c0 l0 = some d0 := by
  rw [mlook, alookup_msetdefault]
  rw [mlook] at h
  cases hh : alookup res k0 with
  | none => rw [hh] at h; exact absurd h (by simp)
  | some m =>
    rw [hh] at h
    by_cases hk : k0 = k
    · simp only [hk, if_true, Option.map_some']
      by_cases hcl : (alookup m (c, loc)).isSome
      · rw [if_pos hcl]
        exact h
      · rw [if_neg hcl]
        exact alookup_append_pres m _ _ _ h
    · simp only [hk, if_false, Option.map_some']
      exact h

theorem mlook_msetdefault_self (res : List (Key × List ((CT × Loc) × DepV)))
    (k : Key) (c : CT) (loc : Loc) (d : DepV)
    (hin : keyIn res k = true) (habs : mlook res k c loc = none) :
    mlook (msetdefault res k c loc d) k c loc = some d := by
  rw [mlook, alookup_msetdefault]
  rw [keyIn_isSome] at hin
  rw [mlook] at habs
  cases hh : alookup res k with
  | none => rw [hh] at hin; simp at hin
  | some m =>
    rw [hh] at habs
    have habs2 : alookup m (c, loc) = none := habs
    simp only [Option.map_some', if_true]
    rw [if_neg]
    · exact alookup_append_self m _ _ habs2
    · intro hx
      rw [habs2] at hx
      simp at hx

theorem mlook_msetdefault_char (res : List (Key × List ((CT × Loc) × DepV)))
    (k : Key) (c : CT) (loc : Loc) (d : DepV) (k0 : Key) (c0 : CT)
    (l0 : Loc) (d0 : DepV)
    (h : mlook (msetdefault res k c loc d) k0 c0 l0 = some d0) :
    mlook res k0 c0 l0 = some d0 ∨
      (k0 = k ∧ c0 = c ∧ l0 = loc ∧ d0 = d) := by
  rw [mlook, alookup_msetdefault] at h
  rw [mlook]
  cases hh : alookup res k0 with
  | none => rw [hh] at h; exact absurd h (by simp)
  | some m =>
    rw [hh] at h
    simp only [Option.map_some'] at h
    by_cases hk : k0 = k
    · simp only [hk, if_true] at h
      by_cases hcl : (alookup m (c, loc)).isSome
      · rw [if_pos hcl] at h
        exact Or.inl h
      · rw [if_neg hcl] at h
        rcases alookup_append_one_char m (c, loc) (c0, l0) d d0 h with
          hh2 | hh2
        · exact Or.inl hh2
        · exact Or.inr ⟨hk, congrArg Prod.fst hh2.1,
            congrArg Prod.snd hh2.1, hh2.2⟩
    · rw [if_neg hk] at h
      exact Or.inl h

end Resolved


/-! ### Canonical cache entries and the extension order

Every write `scope[k]` performs on the caches has a canonical value: a
memo entry at `(k, c, loc)` always holds the pure compose outcome
(line 107 stores it with `setdefault`), a `_dependencies` entry under a
`Dependency` key holds that dependency (line 78), and under any other
non-slice key holds `None` (line 82) — the latter written only when the
resolver's attempt at the scope's own container fails.  This is what makes
repeated lookups stable. -/

/-- Canonical `_resolved` memo value written by the compose step. -/
def memoCanon (env : REnv) (k : Key) (c : CT) (loc : Loc) (d : DepV) :
    Prop :=
  composePure env c loc k = some d ∧ d.truthy = true

/-- Extension order between `_resolved` dicts: entries persist, and any
new entry is canonical. -/
def ResGood (env : REnv)
    (r1 r2 : List (Key × List ((CT × Loc) × DepV))) : Prop :=
  (∀ k c loc d, Resolved.mlook r1 k c loc = some d →
    Resolved.mlook r2 k c loc = some d) ∧
  (∀ k c loc d, Resolved.mlook r2 k c loc = some d →
    Resolved.mlook r1 k c loc = some d ∨ memoCanon env k c loc d)

theorem ResGood_trans (env : REnv)
    {r1 r2 r3 : List (Key × List ((CT × Loc) × DepV))}
    (h12 : ResGood env r1 r2) (h23 : ResGood env r2 r3) :
    ResGood env r1 r3 := by
  refine ⟨fun k c loc d h => h23.1 k c loc d (h12.1 k c loc d h),
    fun k c loc d h => ?_⟩
  rcases h23.2 k c loc d h with h2 | h2
  · exact h12.2 k c loc d h2
  · exact Or.inr h2

/-- Growth: one `resolveTry` step extends the memo canonically. -/
theorem resolveTry_good (env : REnv)
    (res : List (Key × List ((CT × Loc) × DepV))) (k : Key) (c : CT)
    (loc : Loc) : ResGood env res (resolveTry env res k c loc).2 := by
  rw [resolveTry]
  cases hm : Resolved.mlook (Resolved.ensure res k) k c loc with
  | some d =>
    refine ⟨fun k0 c0 l0 d0 h => ?_, fun k0 c0 l0 d0 h => ?_⟩
    · rw [Resolved.mlook_ensure]; exact h
    · rw [Resolved.mlook_ensure] at h; exact Or.inl h
  | none =>
    cases hc : composePure env c loc k with
    | some d =>
      by_cases ht : d.truthy
      · simp only [ht, if_true]
        refine ⟨fun k0 c0 l0 d0 h => ?_, fun k0 c0 l0 d0 h => ?_⟩
        · exact Resolved.mlook_msetdefault_pres _ k c loc d k0 c0 l0 d0
            (by rw [Resolved.mlook_ensure]; exact h)
        · rcases Resolved.mlook_msetdefault_char _ k c loc d k0 c0 l0 d0 h
            with h2 | h2
          · rw [Resolved.mlook_ensure] at h2
            exact Or.inl h2
          · obtain ⟨hk, hcc, hll, hdd⟩ := h2
            subst hk; subst hcc; subst hll; subst hdd
            exact Or.inr ⟨hc, ht⟩
      · simp only [ht, Bool.false_eq_true, if_false]
        refine ⟨fun k0 c0 l0 d0 h => ?_, fun k0 c0 l0 d0 h => ?_⟩
        · rw [Resolved.mlook_ensure]; exact h
        · rw [Resolved.mlook_ensure] at h; exact Or.inl h
    | none =>
      refine ⟨fun k0 c0 l0 d0 h => ?_, fun k0 c0 l0 d0 h => ?_⟩
      · rw [Resolved.mlook_ensure]; exact h
      · rw [Resolved.mlook_ensure] at h; exact Or.inl h

/-- The outcome of `resolveTry` is invariant under canonical extension of
the memo: a hit persists, and a new entry can only hold the very value the
compose step would produce. -/
theorem resolveTry_fst_mono (env : REnv)
    (resA resB : List (Key × List ((CT × Loc) × DepV))) (k : Key) (c : CT)
    (loc : Loc) (hg : ResGood env resA resB) :
    (resolveTry env resB k c loc).1 = (resolveTry env resA k c loc).1 := by
  rcases hg with ⟨hmono, hnew⟩
  rw [resolveTry, resolveTry]
  cases hm : Resolved.mlook resA k c loc with
  | some d =>
    have hA : Resolved.mlook (Resolved.ensure resA k) k c loc = some d := by
      rw [Resolved.mlook_ensure]; exact hm
    have hB : Resolved.mlook (Resolved.ensure resB k) k c loc = some d := by
      rw [Resolved.mlook_ensure]; exact hmono k c loc d hm
    simp [hA, hB]
  | none =>
    have hA : Resolved.mlook (Resolved.ensure resA k) k c loc = none := by
      rw [Resolved.mlook_ensure]; exact hm
    cases hc : composePure env c loc k with
    | some d =>
      by_cases ht : d.truthy
      · cases hmB : Resolved.mlook resB k c loc with
        | some d0 =>
          have hd0 : d0 = d := by
            rcases hnew k c loc d0 hmB with h2 | h2
            · rw [hm] at h2; exact absurd h2 (by simp)
            · obtain ⟨hcomp, htr⟩ := h2
              rw [hc] at hcomp
              exact Option.some_inj.mp hcomp.symm
          subst hd0
          have hB : Resolved.mlook (Resolved.ensure resB k) k c loc =
              some d0 := by
            rw [Resolved.mlook_ensure]; exact hmB
          simp [hA, hB, hc, ht]
        | none =>
          have hB : Resolved.mlook (Resolved.ensure resB k) k c loc =
              none := by
            rw [Resolved.mlook_ensure]; exact hmB
          simp [hA, hB, hc, ht]
      · have hmB : Resolved.mlook resB k c loc = none := by
          cases h0 : Resolved.mlook resB k c loc with
          | none => rfl
          | some d0 =>
            exfalso
            rcases hnew k c loc d0 h0 with h2 | h2
            · rw [hm] at h2; exact absurd h2 (by simp)
            · obtain ⟨hcomp, htr⟩ := h2
              rw [hc] at hcomp
              have : d0 = d := Option.some_inj.mp hcomp.symm
              subst this
              exact ht htr
        have hB : Resolved.mlook (Resolved.ensure resB k) k c loc =
            none := by
          rw [Resolved.mlook_ensure]; exact hmB
        simp [hA, hB, hc, ht]
    | none =>
      have hmB : Resolved.mlook resB k c loc = none := by
        cases h0 : Resolved.mlook resB k c loc with
        | none => rfl
        | some d0 =>
          exfalso
          rcases hnew k c loc d0 h0 with h2 | h2
          · rw [hm] at h2; exact absurd h2 (by simp)
          · obtain ⟨hcomp, htr⟩ := h2
            rw [hc] at hcomp
            exact Option.noConfusion hcomp
      have hB : Resolved.mlook (Resolved.ensure resB k) k c loc = none := by
        rw [Resolved.mlook_ensure]; exact hmB
      simp [hA, hB, hc]

/-! ### The extension order on scope-state lists -/

theorem stAt_nil : ∀ i : Nat, stAt [] i = emptySt
  | 0 => rfl
  | Nat.succ i => stAt_nil i

theorem stAt_setHead_zero (sts : List ScopeSt) (s : ScopeSt) :
    stAt (setHead sts s) 0 = s := by
  cases sts <;> rfl

theorem stAt_setHead_succ (sts : List ScopeSt) (s : ScopeSt) (i : Nat) :
    stAt (setHead sts s) (Nat.succ i) = stAt sts (Nat.succ i) := by
  cases sts <;> rfl

/-- Per-scope entry persistence. -/
def ScopeSt.le (s1 s2 : ScopeSt) : Prop :=
  (∀ k v, alookup s1.deps k = some v → alookup s2.deps k = some v) ∧
  (∀ k c loc d, Resolved.mlook s1.resolved k c loc = some d →
    Resolved.mlook s2.resolved k c loc = some d)

theorem ScopeSt.le_refl (s : ScopeSt) : ScopeSt.le s s :=
  ⟨fun _ _ h => h, fun _ _ _ _ h => h⟩

/-- The container of the scope at position `i` of the chain. -/
def ctAt : List CT → Nat → Option CT
  | [], _ => none
  | c :: _, 0 => some c
  | _ :: cs, Nat.succ i => ctAt cs i

/-- Canonical `_dependencies` value written by `__missing__` at a scope
whose container is `oc`, judged against the reference state `st` of that
scope (slice keys are never written; a `None` entry additionally records
that the resolver's attempt at the scope's own container fails from
`st`). -/
def depsCanonAt (env : REnv) (st : ScopeSt) (oc : Option CT) (k : Key)
    (v : Option DepV) : Prop :=
  match k with
  | Key.dep d => v = some d
  | Key.sl _ => False
  | _ => v = none ∧ ∃ c, oc = some c ∧
      truthyOpt (resolveTry env st.resolved k c Loc.GLOBAL).1 = false

/-- Extension order between whole state lists with respect to the scope
chain: per scope, entries persist and every new entry is canonical. -/
def GoodE (env : REnv) (chain : List CT) (a b : List ScopeSt) : Prop :=
  (∀ i, ScopeSt.le (stAt a i) (stAt b i)) ∧
  (∀ i k v, alookup (stAt b i).deps k = some v →
    alookup (stAt a i).deps k = some v ∨
      depsCanonAt env (stAt a i) (ctAt chain i) k v) ∧
  (∀ i k c loc d, Resolved.mlook (stAt b i).resolved k c loc = some d →
    Resolved.mlook (stAt a i).resolved k c loc = some d ∨
      memoCanon env k c loc d)

theorem GoodE_refl (env : REnv) (chain : List CT) (a : List ScopeSt) :
    GoodE env chain a a :=
  ⟨fun _ => ScopeSt.le_refl _, fun _ _ _ h => Or.inl h,
    fun _ _ _ _ _ h => Or.inl h⟩

/-- The per-scope memo components of `GoodE` give a `ResGood` between the
states at any position. -/
theorem GoodE_resGood (env : REnv) (chain : List CT) {a b : List ScopeSt}
    (h : GoodE env chain a b) (i : Nat) :
    ResGood env (stAt a i).resolved (stAt b i).resolved :=
  ⟨fun k c loc d hh => (h.1 i).2 k c loc d hh, h.2.2 i⟩

theorem GoodE_trans (env : REnv) (chain : List CT) {a b c : List ScopeSt}
    (hab : GoodE env chain a b) (hbc : GoodE env chain b c) :
    GoodE env chain a c := by
  refine ⟨fun i => ⟨fun k v h => (hbc.1 i).1 k v ((hab.1 i).1 k v h),
    fun k c0 l0 d h => (hbc.1 i).2 k c0 l0 d ((hab.1 i).2 k c0 l0 d h)⟩,
    fun i k v h => ?_, fun i k c0 l0 d h => ?_⟩
  · rcases hbc.2.1 i k v h with h2 | h2
    · exact hab.2.1 i k v h2
    · right
      match k, h2 with
      | Key.dep d0, h2 => exact h2
      | Key.inj n, h2 =>
        obtain ⟨hv, c0, hc0, hrf⟩ := h2
        refine ⟨hv, c0, hc0, ?_⟩
        rw [resolveTry_fst_mono env (stAt a i).resolved (stAt b i).resolved
          (Key.inj n) c0 Loc.GLOBAL (GoodE_resGood env chain hab i)] at hrf
        exact hrf
      | Key.prov p, h2 =>
        obtain ⟨hv, c0, hc0, hrf⟩ := h2
        refine ⟨hv, c0, hc0, ?_⟩
        rw [resolveTry_fst_mono env (stAt a i).resolved (stAt b i).resolved
          (Key.prov p) c0 Loc.GLOBAL (GoodE_resGood env chain hab i)] at hrf
        exact hrf
  · rcases hbc.2.2 i k c0 l0 d h with h2 | h2
    · exact hab.2.2 i k c0 l0 d h2
    · exact Or.inr h2

theorem GoodE_tail (env : REnv) (self : CT) (chain : List CT)
    {a b : List ScopeSt} (h : GoodE env (self :: chain) a b) :
    GoodE env chain (stTail a) (stTail b) :=
  ⟨fun i => h.1 (Nat.succ i), fun i => h.2.1 (Nat.succ i),
    fun i => h.2.2 (Nat.succ i)⟩

/-- Replacing the head state with one that extends it canonically is a
canonical extension of the whole list. -/
theorem GoodE_updHead (env : REnv) (self : CT) (chain : List CT)
    (sts : List ScopeSt) (s2 : ScopeSt)
    (hdep1 : ∀ k v, alookup (stHead sts).deps k = some v →
      alookup s2.deps k = some v)
    (hdep2 : ∀ k v, alookup s2.deps k = some v →
      alookup (stHead sts).deps k = some v ∨
        depsCanonAt env (stHead sts) (some self) k v)
    (hres1 : ∀ k c loc d,
      Resolved.mlook (stHead sts).resolved k c loc = some d →
      Resolved.mlook s2.resolved k c loc = some d)
    (hres2 : ∀ k c loc d, Resolved.mlook s2.resolved k c loc = some d →
      Resolved.mlook (stHead sts).resolved k c loc = some d ∨
        memoCanon env k c loc d) :
    GoodE env (self :: chain) sts (setHead sts s2) := by
  refine ⟨fun i => ?_, fun i => ?_, fun i => ?_⟩
  · cases i with
    | zero => exact (stAt_setHead_zero sts s2).symm ▸ ⟨hdep1, hres1⟩
    | succ j =>
      rw [stAt_setHead_succ]
      exact ScopeSt.le_refl _
  · cases i with
    | zero =>
      rw [stAt_setHead_zero]
      exact hdep2
    | succ j =>
      rw [stAt_setHead_succ]
      exact fun k v h => Or.inl h
  · cases i with
    | zero =>
      rw [stAt_setHead_zero]
      exact hres2
    | succ j =>
      rw [stAt_setHead_succ]
      exact fun k c loc d h => Or.inl h

/-- Replacing the tail of a list by a canonical extension of its tail. -/
theorem GoodE_cons_headTail (env : REnv) (self : CT) (chain : List CT)
    (sts : List ScopeSt) (t2 : List ScopeSt)
    (h : GoodE env chain (stTail sts) t2) :
    GoodE env (self :: chain) sts (stHead sts :: t2) := by
  refine ⟨fun i => ?_, fun i => ?_, fun i => ?_⟩
  · cases i with
    | zero => exact ScopeSt.le_refl _
    | succ j => exact h.1 j
  · cases i with
    | zero => exact fun k v hh => Or.inl hh
    | succ j => exact h.2.1 j
  · cases i with
    | zero => exact fun k c loc d hh => Or.inl hh
    | succ j => exact h.2.2 j

theorem stHead_setHead (sts : List ScopeSt) (s : ScopeSt) :
    stHead (setHead sts s) = s := by
  cases sts <;> rfl

/-- With the default container argument (`None` → `self.container`) the
local resolver is exactly the single attempt at `self.container`: the
retry guard of line 109 is false. -/
theorem resolveLocal_self (env : REnv) (st : ScopeSt) (k : Key)
    (loc : Loc) (self : CT) :
    resolveLocal env st k none loc self =
      resolveTry env st.resolved k self loc := by
  rw [resolveLocal]
  cases h : (resolveTry env st.resolved k self loc).1 with
  | some d => simp [h, Prod.ext_iff]
  | none => simp [h, Prod.ext_iff]

/-- A `__getitem__`-originated resolution (`container=None`,
`locality=GLOBAL`, `only_self=True`) is exactly the lines 93–107 attempt
at the head container, written back into the head state. -/
theorem resolveDep_getitem (env : REnv) (self : CT) (ps : List CT)
    (sts : List ScopeSt) (k : Key) :
    resolveDep env (self :: ps) sts k none Loc.GLOBAL true =
      ((resolveTry env (stHead sts).resolved k self Loc.GLOBAL).1,
        setHead sts { stHead sts with
          resolved :=
            (resolveTry env (stHead sts).resolved k self Loc.GLOBAL).2 }) := by
  rw [resolveDep, resolveLocal_self]
  cases h : (resolveTry env (stHead sts).resolved k self Loc.GLOBAL).1 with
  | some d => simp [h, Prod.ext_iff]
  | none => simp [h, Prod.ext_iff]


/-! ### Growth: every `scope[k]` write is canonical -/

/-- The resolve arm of `__missing__` extends the caches canonically. -/
theorem missingResolve_good (env : REnv) (self : CT) (ps : List CT)
    (sts : List ScopeSt) (k : Key) (hdep : ∀ d, k ≠ Key.dep d)
    (hsl : ∀ s, k ≠ Key.sl s) :
    GoodE env (self :: ps) sts
      (missingResolve env (self :: ps) sts k).2 := by
  rw [missingResolve, resolveDep_getitem]
  have hg := resolveTry_good env (stHead sts).resolved k self Loc.GLOBAL
  have h1 : GoodE env (self :: ps) sts
      (setHead sts { stHead sts with
        resolved :=
          (resolveTry env (stHead sts).resolved k self Loc.GLOBAL).2 }) :=
    GoodE_updHead env self ps sts _ (fun k0 v h => h)
      (fun k0 v h => Or.inl h) (fun k0 c loc d h => hg.1 k0 c loc d h)
      (fun k0 c loc d h => hg.2 k0 c loc d h)
  refine GoodE_trans env (self :: ps) h1 ?_
  set stsM := setHead sts { stHead sts with
    resolved :=
      (resolveTry env (stHead sts).resolved k self Loc.GLOBAL).2 }
    with hstsM
  have hMhead : (stHead stsM).resolved =
      (resolveTry env (stHead sts).resolved k self Loc.GLOBAL).2 := by
    rw [hstsM, stHead_setHead]
  -- rerunning the attempt on the post-state returns the same outcome
  have hrerun : (resolveTry env (stHead stsM).resolved k self Loc.GLOBAL).1 =
      (resolveTry env (stHead sts).resolved k self Loc.GLOBAL).1 := by
    rw [hMhead]
    exact resolveTry_fst_mono env _ _ k self Loc.GLOBAL hg
  cases hrd : (resolveTry env (stHead sts).resolved k self Loc.GLOBAL).1 with
  | some d =>
    by_cases ht : d.truthy = true
    · simp only [hrd, truthyOpt, ht, if_true]
      rw [lookupDepKey]
      cases hh : alookup (stHead stsM).deps (Key.dep d) with
      | some v =>
        simp only [hh]
        exact GoodE_updHead env self ps stsM _ (fun k0 v0 h => h)
          (fun k0 v0 h => Or.inl h) (fun k0 c loc d0 h => h)
          (fun k0 c loc d0 h => Or.inl h)
      | none =>
        simp only [hh]
        refine GoodE_updHead env self ps stsM _ ?_ ?_
          (fun k0 c loc d0 h => h) (fun k0 c loc d0 h => Or.inl h)
        · exact fun k0 v0 h => alookup_append_pres _ _ k0 v0 h
        · intro k0 v0 h
          rcases alookup_append_one_char _ _ _ _ _ h with h2 | h2
          · exact Or.inl h2
          · refine Or.inr ?_
            rw [h2.1, h2.2]
            rfl
    · simp only [hrd, truthyOpt, ht, Bool.false_eq_true, if_false]
      by_cases hp : isProvided env (self :: ps) stsM k false = true
      · simp only [hp, if_true]
        refine GoodE_updHead env self ps stsM _ ?_ ?_
          (fun k0 c loc d0 h => h) (fun k0 c loc d0 h => Or.inl h)
        · exact fun k0 v0 h => alookup_append_pres _ _ k0 v0 h
        · intro k0 v0 h
          rcases alookup_append_one_char _ _ _ _ _ h with h2 | h2
          · exact Or.inl h2
          · right
            rw [h2.1, h2.2]
            match k, hdep, hsl with
            | Key.inj n, _, _ =>
              refine ⟨rfl, self, rfl, ?_⟩
              rw [hrerun, hrd]
              simp [truthyOpt, ht]
            | Key.prov p, _, _ =>
              refine ⟨rfl, self, rfl, ?_⟩
              rw [hrerun, hrd]
              simp [truthyOpt, ht]
            | Key.dep d0, hdep, _ => exact absurd rfl (hdep d0)
            | Key.sl s0, _, hsl => exact absurd rfl (hsl s0)
      · simp only [hp, Bool.false_eq_true, if_false]
        exact GoodE_refl env _ _
  | none =>
    simp only [hrd, truthyOpt, Bool.false_eq_true, if_false]
    by_cases hp : isProvided env (self :: ps) stsM k false = true
    · simp only [hp, if_true]
      refine GoodE_updHead env self ps stsM _ ?_ ?_
        (fun k0 c loc d0 h => h) (fun k0 c loc d0 h => Or.inl h)
      · exact fun k0 v0 h => alookup_append_pres _ _ k0 v0 h
      · intro k0 v0 h
        rcases alookup_append_one_char _ _ _ _ _ h with h2 | h2
        · exact Or.inl h2
        · right
          rw [h2.1, h2.2]
          match k, hdep, hsl with
          | Key.inj n, _, _ =>
            refine ⟨rfl, self, rfl, ?_⟩
            rw [hrerun, hrd]
            rfl
          | Key.prov p, _, _ =>
            refine ⟨rfl, self, rfl, ?_⟩
            rw [hrerun, hrd]
            rfl
          | Key.dep d0, hdep, _ => exact absurd rfl (hdep d0)
          | Key.sl s0, _, hsl => exact absurd rfl (hsl s0)
    · simp only [hp, Bool.false_eq_true, if_false]
      exact GoodE_refl env _ _

/-- `__missing__` extends the caches canonically (slice keys never reach
it from `__getitem__`). -/
theorem missingStep_good (env : REnv) (self : CT) (ps : List CT)
    (sts : List ScopeSt) (k : Key) (hk : ∀ s, k ≠ Key.sl s) :
    GoodE env (self :: ps) sts
      (missingStep env (self :: ps) sts k).2 := by
  match k, hk with
  | Key.sl s, hk => exact absurd rfl (hk s)
  | Key.dep d, _ =>
    rw [missingStep]
    cases hh : alookup (stHead sts).deps (Key.dep d) with
    | some v =>
      simp only [hh]
      exact GoodE_refl env _ sts
    | none =>
      simp only [hh]
      refine GoodE_updHead env self ps sts _ ?_ ?_ (fun k0 c loc d0 h => h)
        (fun k0 c loc d0 h => Or.inl h)
      · exact fun k0 v h => alookup_append_pres _ _ k0 v h
      · intro k0 v h
        rcases alookup_append_one_char _ _ _ _ _ h with h2 | h2
        · exact Or.inl h2
        · refine Or.inr ?_
          rw [h2.1, h2.2]
          rfl
  | Key.inj n, _ =>
    rw [missingStep]
    exact missingResolve_good env self ps sts (Key.inj n) (by simp)
      (by simp)
  | Key.prov p, _ =>
    rw [missingStep]
    exact missingResolve_good env self ps sts (Key.prov p) (by simp)
      (by simp)

/-- Growth: every `scope[k]` lookup extends the caches canonically — in
particular every existing `_resolved` memo entry survives unchanged. -/
theorem getitem_good (env : REnv) :
    ∀ (scopes : List CT) (sts : List ScopeSt) (k : Key),
      GoodE env scopes sts (getitem env scopes sts k).2
  | [], sts, k => by
    rw [getitem]
    exact GoodE_refl env [] sts
  | self :: ps, sts, Key.sl s => by
    rw [getitem]
    have ih1 := getitem_good env (self :: ps) sts s
    by_cases ht : truthyOpt (getitem env (self :: ps) sts s).1 = true
    · simp only [ht, if_true]
      exact ih1
    · simp only [ht, Bool.false_eq_true, if_false]
      have ih2 := getitem_good env ps
        (stTail (getitem env (self :: ps) sts s).2) (Key.sl s)
      exact GoodE_trans env (self :: ps) ih1
        (GoodE_cons_headTail env self ps _ _ ih2)
  | self :: ps, sts, Key.inj n => by
    rw [getitem, getitemBase]
    cases hh : alookup (stHead sts).deps (Key.inj n) with
    | some v =>
      simp only [hh]
      exact GoodE_refl env _ sts
    | none =>
      simp only [hh]
      exact missingStep_good env self ps sts (Key.inj n) (by simp)
  | self :: ps, sts, Key.dep d => by
    rw [getitem, getitemBase]
    cases hh : alookup (stHead sts).deps (Key.dep d) with
    | some v =>
      simp only [hh]
      exact GoodE_refl env _ sts
    | none =>
      simp only [hh]
      exact missingStep_good env self ps sts (Key.dep d) (by simp)
  | self :: ps, sts, Key.prov p => by
    rw [getitem, getitemBase]
    cases hh : alookup (stHead sts).deps (Key.prov p) with
    | some v =>
      simp only [hh]
      exact GoodE_refl env _ sts
    | none =>
      simp only [hh]
      exact missingStep_good env self ps sts (Key.prov p) (by simp)
termination_by scopes _ k => (scopes.length, sizeOf k)
decreasing_by
  all_goals simp_wf
  · exact Prod.Lex.right _ (by simp)
  · exact Prod.Lex.left _ _ (by simp)


/-! ### Stability: a second `scope[k]` returns the same result -/

theorem setHead_setHead (sts : List ScopeSt) (a b : ScopeSt) :
    setHead (setHead sts a) b = setHead sts b := by
  cases sts <;> rfl

/-- Reading the head components out of a `GoodE` extension whose left side
is a head update. -/
theorem GoodE_head (env : REnv) (self : CT) (chain : List CT)
    (s2 : ScopeSt) (sts sts' : List ScopeSt)
    (h : GoodE env (self :: chain) (setHead sts s2) sts') :
    (∀ k v, alookup s2.deps k = some v →
      alookup (stHead sts').deps k = some v) ∧
    (∀ k v, alookup (stHead sts').deps k = some v →
      alookup s2.deps k = some v ∨ depsCanonAt env s2 (some self) k v) ∧
    ResGood env s2.resolved (stHead sts').resolved := by
  obtain ⟨h1, h2, h3⟩ := h
  have hle := h1 0
  have hnew := h2 0
  have hres := h3 0
  rw [stAt_setHead_zero] at hle hnew hres
  exact ⟨fun k v hv => hle.1 k v hv,
    fun k v hv => hnew k v hv,
    ⟨fun k c loc d hd => hle.2 k c loc d hd, hres⟩⟩

/-- Stability of the resolve arm: after `__missing__` has run once for a
non-`Dependency`, non-slice key and the state has been extended further
only canonically, a fresh `scope[k]` lookup returns the same value. -/
theorem missingResolve_stable (env : REnv) (self : CT) (ps : List CT)
    (sts sts' : List ScopeSt) (k : Key)
    (hnd : ∀ d, k ≠ Key.dep d)
    (hcanon : ∀ (st : ScopeSt) (oc : Option CT) (w : Option DepV),
      depsCanonAt env st oc k w →
      w = none ∧ ∃ c, oc = some c ∧
        truthyOpt (resolveTry env st.resolved k c Loc.GLOBAL).1 = false)
    (hms : missingStep env (self :: ps) sts' k =
      missingResolve env (self :: ps) sts' k)
    (h1 : alookup (stHead sts).deps k = none)
    (hGood : GoodE env (self :: ps)
      (missingResolve env (self :: ps) sts k).2 sts') :
    (getitemBase env (self :: ps) sts' k).1 =
      (missingResolve env (self :: ps) sts k).1 := by
  have hrerun := resolveTry_fst_mono env (stHead sts).resolved
    (resolveTry env (stHead sts).resolved k self Loc.GLOBAL).2 k self
    Loc.GLOBAL (resolveTry_good env (stHead sts).resolved k self Loc.GLOBAL)
  rw [missingResolve, resolveDep_getitem] at hGood ⊢
  cases hrt : (resolveTry env (stHead sts).resolved k self Loc.GLOBAL).1 with
  | some d =>
    by_cases htd : d.truthy = true
    · -- the resolver succeeded: the first call returned through `self[dep]`
      simp only [hrt, truthyOpt, htd, if_true] at hGood ⊢
      rw [lookupDepKey] at hGood ⊢
      rw [stHead_setHead] at hGood ⊢
      cases hv : alookup
          { stHead sts with
            resolved :=
              (resolveTry env (stHead sts).resolved k self
                Loc.GLOBAL).2 }.deps (Key.dep d) with
      | some v =>
        simp only [hv, setHead_setHead] at hGood ⊢
        have hH := GoodE_head env self ps _ sts sts' hGood
        have hgB : ResGood env (stHead sts).resolved
            (stHead sts').resolved :=
          ResGood_trans env
            (resolveTry_good env (stHead sts).resolved k self Loc.GLOBAL)
            hH.2.2
        rw [getitemBase]
        cases h1' : alookup (stHead sts').deps k with
        | some w =>
          exfalso
          rcases hH.2.1 k w h1' with hw | hw
          · exact Option.noConfusion (h1 ▸ hw)
          · obtain ⟨hwn, c, hc, hfals⟩ := hcanon _ _ w hw
            rw [Option.some_inj.mp hc.symm] at hfals
            rw [hrerun, hrt] at hfals
            simp [truthyOpt, htd] at hfals
        | none =>
          simp only [h1']
          rw [hms, missingResolve, resolveDep_getitem]
          have h2nd := resolveTry_fst_mono env (stHead sts).resolved
            (stHead sts').resolved k self Loc.GLOBAL hgB
          simp only [h2nd, hrt, truthyOpt, htd, if_true]
          rw [lookupDepKey, stHead_setHead]
          have hv' : alookup (stHead sts').deps (Key.dep d) = some v :=
            hH.1 (Key.dep d) v hv
          simp only [hv']
      | none =>
        simp only [hv, setHead_setHead] at hGood ⊢
        have hH := GoodE_head env self ps _ sts sts' hGood
        have hgB : ResGood env (stHead sts).resolved
            (stHead sts').resolved :=
          ResGood_trans env
            (resolveTry_good env (stHead sts).resolved k self Loc.GLOBAL)
            hH.2.2
        rw [getitemBase]
        cases h1' : alookup (stHead sts').deps k with
        | some w =>
          exfalso
          rcases hH.2.1 k w h1' with hw | hw
          · rcases alookup_append_one_char _ _ _ _ _ hw with h2 | h2
            · exact Option.noConfusion (h1 ▸ h2)
            · exact hnd d h2.1
          · obtain ⟨hwn, c, hc, hfals⟩ := hcanon _ _ w hw
            rw [Option.some_inj.mp hc.symm] at hfals
            rw [hrerun, hrt] at hfals
            simp [truthyOpt, htd] at hfals
        | none =>
          simp only [h1']
          rw [hms, missingResolve, resolveDep_getitem]
          have h2nd := resolveTry_fst_mono env (stHead sts).resolved
            (stHead sts').resolved k self Loc.GLOBAL hgB
          simp only [h2nd, hrt, truthyOpt, htd, if_true]
          rw [lookupDepKey, stHead_setHead]
          have hv2 : alookup
              ({ stHead sts with
                resolved :=
                  (resolveTry env (stHead sts).resolved k self
                    Loc.GLOBAL).2 }.deps ++ [(Key.dep d, some d)])
                (Key.dep d) = some (some d) :=
            alookup_append_self _ _ _ hv
          have hv' : alookup (stHead sts').deps (Key.dep d) =
              some (some d) :=
            hH.1 (Key.dep d) (some d) hv2
          simp only [hv']
    · -- a falsy resolution: the first call returned `None`
      simp only [hrt, truthyOpt, htd, Bool.false_eq_true, if_false]
        at hGood ⊢
      by_cases hp : isProvided env (self :: ps)
          (setHead sts
            { stHead sts with
              resolved :=
                (resolveTry env (stHead sts).resolved k self
                  Loc.GLOBAL).2 }) k false = true
      · simp only [hp, if_true] at hGood ⊢
        rw [stHead_setHead, setHead_setHead] at hGood
        have hH := GoodE_head env self ps _ sts sts' hGood
        have hgB : ResGood env (stHead sts).resolved
            (stHead sts').resolved :=
          ResGood_trans env
            (resolveTry_good env (stHead sts).resolved k self Loc.GLOBAL)
            hH.2.2
        rw [getitemBase]
        cases h1' : alookup (stHead sts').deps k with
        | some w =>
          rcases hH.2.1 k w h1' with hw | hw
          · rcases alookup_append_one_char _ _ _ _ _ hw with h2 | h2
            · exact absurd (h1 ▸ h2) (by simp)
            · simp [h2.2]
          · obtain ⟨hwn, c, hc, hfals⟩ := hcanon _ _ w hw
            simp [hwn]
        | none =>
          simp only [h1']
          rw [hms, missingResolve, resolveDep_getitem]
          have h2nd := resolveTry_fst_mono env (stHead sts).resolved
            (stHead sts').resolved k self Loc.GLOBAL hgB
          simp only [h2nd, hrt, truthyOpt, htd, Bool.false_eq_true,
            if_false]
          by_cases hp' : isProvided env (self :: ps)
              (setHead sts'
                { stHead sts' with
                  resolved :=
                    (resolveTry env (stHead sts').resolved k self
                      Loc.GLOBAL).2 }) k false = true
          · simp [hp']
          · simp [hp']
      · simp only [hp, Bool.false_eq_true, if_false] at hGood ⊢
        have hH := GoodE_head env self ps _ sts sts' hGood
        have hgB : ResGood env (stHead sts).resolved
            (stHead sts').resolved :=
          ResGood_trans env
            (resolveTry_good env (stHead sts).resolved k self Loc.GLOBAL)
            hH.2.2
        rw [getitemBase]
        cases h1' : alookup (stHead sts').deps k with
        | some w =>
          rcases hH.2.1 k w h1' with hw | hw
          · exact absurd (h1 ▸ hw) (by simp)
          · obtain ⟨hwn, c, hc, hfals⟩ := hcanon _ _ w hw
            simp [hwn]
        | none =>
          simp only [h1']
          rw [hms, missingResolve, resolveDep_getitem]
          have h2nd := resolveTry_fst_mono env (stHead sts).resolved
            (stHead sts').resolved k self Loc.GLOBAL hgB
          simp only [h2nd, hrt, truthyOpt, htd, Bool.false_eq_true,
            if_false]
          by_cases hp' : isProvided env (self :: ps)
              (setHead sts'
                { stHead sts' with
                  resolved :=
                    (resolveTry env (stHead sts').resolved k self
                      Loc.GLOBAL).2 }) k false = true
          · simp [hp']
          · simp [hp']
  | none =>
    simp only [hrt, truthyOpt, Bool.false_eq_true, if_false] at hGood ⊢
    by_cases hp : isProvided env (self :: ps)
        (setHead sts
          { stHead sts with
            resolved :=
              (resolveTry env (stHead sts).resolved k self
                Loc.GLOBAL).2 }) k false = true
    · simp only [hp, if_true] at hGood ⊢
      rw [stHead_setHead, setHead_setHead] at hGood
      have hH := GoodE_head env self ps _ sts sts' hGood
      have hgB : ResGood env (stHead sts).resolved
          (stHead sts').resolved :=
        ResGood_trans env
          (resolveTry_good env (stHead sts).resolved k self Loc.GLOBAL)
          hH.2.2
      rw [getitemBase]
      cases h1' : alookup (stHead sts').deps k with
      | some w =>
        rcases hH.2.1 k w h1' with hw | hw
        · rcases alookup_append_one_char _ _ _ _ _ hw with h2 | h2
          · exact absurd (h1 ▸ h2) (by simp)
          · simp [h2.2]
        · obtain ⟨hwn, c, hc, hfals⟩ := hcanon _ _ w hw
          simp [hwn]
      | none =>
        simp only [h1']
        rw [hms, missingResolve, resolveDep_getitem]
        have h2nd := resolveTry_fst_mono env (stHead sts).resolved
          (stHead sts').resolved k self Loc.GLOBAL hgB
        simp only [h2nd, hrt, truthyOpt, Bool.false_eq_true, if_false]
        by_cases hp' : isProvided env (self :: ps)
            (setHead sts'
              { stHead sts' with
                resolved :=
                  (resolveTry env (stHead sts').resolved k self
                    Loc.GLOBAL).2 }) k false = true
        · simp [hp']
        · simp [hp']
    · simp only [hp, Bool.false_eq_true, if_false] at hGood ⊢
      have hH := GoodE_head env self ps _ sts sts' hGood
      have hgB : ResGood env (stHead sts).resolved
          (stHead sts').resolved :=
        ResGood_trans env
          (resolveTry_good env (stHead sts).resolved k self Loc.GLOBAL)
          hH.2.2
      rw [getitemBase]
      cases h1' : alookup (stHead sts').deps k with
      | some w =>
        rcases hH.2.1 k w h1' with hw | hw
        · exact absurd (h1 ▸ hw) (by simp)
        · obtain ⟨hwn, c, hc, hfals⟩ := hcanon _ _ w hw
          simp [hwn]
      | none =>
        simp only [h1']
        rw [hms, missingResolve, resolveDep_getitem]
        have h2nd := resolveTry_fst_mono env (stHead sts).resolved
          (stHead sts').resolved k self Loc.GLOBAL hgB
        simp only [h2nd, hrt, truthyOpt, Bool.false_eq_true, if_false]
        by_cases hp' : isProvided env (self :: ps)
            (setHead sts'
              { stHead sts' with
                resolved :=
                  (resolveTry env (stHead sts').resolved k self
                    Loc.GLOBAL).2 }) k false = true
        · simp [hp']
        · simp [hp']


/-- Stability of the non-slice arm of `__getitem__`: once `scope[k]` has
run and the state has only grown canonically, the lookup repeats its
result. -/
theorem getitemBase_stable (env : REnv) (self : CT) (ps : List CT)
    (sts sts' : List ScopeSt) (k : Key) (hsl : ∀ s, k ≠ Key.sl s)
    (hGood : GoodE env (self :: ps)
      (getitemBase env (self :: ps) sts k).2 sts') :
    (getitemBase env (self :: ps) sts' k).1 =
      (getitemBase env (self :: ps) sts k).1 := by
  match k, hsl with
  | Key.sl s, hsl => exact absurd rfl (hsl s)
  | Key.dep d, _ =>
    rw [getitemBase] at hGood
    cases h1 : alookup (stHead sts).deps (Key.dep d) with
    | some v =>
      simp only [h1] at hGood
      have hle := hGood.1 0
      have hv' : alookup (stHead sts').deps (Key.dep d) = some v :=
        hle.1 (Key.dep d) v h1
      simp [getitemBase, hv', h1]
    | none =>
      simp only [h1, missingStep] at hGood
      have hle := hGood.1 0
      rw [stAt_setHead_zero] at hle
      have hv2 : alookup
          ({ stHead sts with
            deps :=
              (stHead sts).deps ++ [(Key.dep d, some d)] }).deps
            (Key.dep d) = some (some d) :=
        alookup_append_self _ _ _ h1
      have hv' : alookup (stHead sts').deps (Key.dep d) =
          some (some d) :=
        hle.1 (Key.dep d) (some d) hv2
      simp [getitemBase, hv', h1, missingStep]
  | Key.inj n, _ =>
    rw [getitemBase] at hGood
    cases h1 : alookup (stHead sts).deps (Key.inj n) with
    | some v =>
      simp only [h1] at hGood
      have hle := hGood.1 0
      have hv' : alookup (stHead sts').deps (Key.inj n) = some v :=
        hle.1 (Key.inj n) v h1
      simp [getitemBase, hv', h1]
    | none =>
      simp only [h1, missingStep] at hGood
      have h := missingResolve_stable env self ps sts sts' (Key.inj n)
        (fun d h => Key.noConfusion h) (fun st oc w h => h) rfl h1 hGood
      rw [h]
      simp [getitemBase, h1, missingStep]
  | Key.prov p, _ =>
    rw [getitemBase] at hGood
    cases h1 : alookup (stHead sts).deps (Key.prov p) with
    | some v =>
      simp only [h1] at hGood
      have hle := hGood.1 0
      have hv' : alookup (stHead sts').deps (Key.prov p) = some v :=
        hle.1 (Key.prov p) v h1
      simp [getitemBase, hv', h1]
    | none =>
      simp only [h1, missingStep] at hGood
      have h := missingResolve_stable env self ps sts sts' (Key.prov p)
        (fun d h => Key.noConfusion h) (fun st oc w h => h) rfl h1 hGood
      rw [h]
      simp [getitemBase, h1, missingStep]

/-- Stability of `scope[k]` itself: after one lookup, any further
canonical growth of the caches — in particular none at all — leaves the
result of a repeated lookup unchanged. -/
theorem getitem_stable (env : REnv) :
    ∀ (scopes : List CT) (sts sts' : List ScopeSt) (k : Key),
      GoodE env scopes (getitem env scopes sts k).2 sts' →
      (getitem env scopes sts' k).1 = (getitem env scopes sts k).1
  | [], sts, sts', k, _ => by
    rw [getitem, getitem]
  | self :: ps, sts, sts', Key.sl s, hGood => by
    have e1 : ∀ (stsX : List ScopeSt),
        getitem env (self :: ps) stsX (Key.sl s) =
          (if truthyOpt (getitem env (self :: ps) stsX s).1 = true then
            getitem env (self :: ps) stsX s
          else
            ((getitem env ps (stTail (getitem env (self :: ps) stsX s).2)
                (Key.sl s)).1,
              stHead (getitem env (self :: ps) stsX s).2 ::
                (getitem env ps
                  (stTail (getitem env (self :: ps) stsX s).2)
                  (Key.sl s)).2)) := by
      intro stsX
      rw [getitem]
    by_cases ht : truthyOpt (getitem env (self :: ps) sts s).1 = true
    · rw [e1 sts, if_pos ht] at hGood
      have hs := getitem_stable env (self :: ps) sts sts' s hGood
      have ht' : truthyOpt (getitem env (self :: ps) sts' s).1 = true := by
        rw [hs]; exact ht
      rw [e1 sts', if_pos ht', e1 sts, if_pos ht]
      exact hs
    · rw [e1 sts, if_neg ht] at hGood
      have hcons := GoodE_cons_headTail env self ps
        (getitem env (self :: ps) sts s).2
        (getitem env ps (stTail (getitem env (self :: ps) sts s).2)
          (Key.sl s)).2
        (getitem_good env ps (stTail (getitem env (self :: ps) sts s).2)
          (Key.sl s))
      have hr12 : GoodE env (self :: ps)
          (getitem env (self :: ps) sts s).2 sts' :=
        GoodE_trans env (self :: ps) hcons hGood
      have hs := getitem_stable env (self :: ps) sts sts' s hr12
      have ht' : ¬truthyOpt (getitem env (self :: ps) sts' s).1 = true := by
        rw [hs]; exact ht
      rw [e1 sts', if_neg ht', e1 sts, if_neg ht]
      have htail1 := GoodE_tail env self ps hGood
      have htail2 := GoodE_tail env self ps
        (getitem_good env (self :: ps) sts' s)
      have htail := GoodE_trans env ps htail1 htail2
      exact getitem_stable env ps
        (stTail (getitem env (self :: ps) sts s).2)
        (stTail (getitem env (self :: ps) sts' s).2) (Key.sl s) htail
  | self :: ps, sts, sts', Key.inj n, hGood => by
    have e2 : getitem env (self :: ps) sts (Key.inj n) =
        getitemBase env (self :: ps) sts (Key.inj n) := by rw [getitem]
    have e3 : getitem env (self :: ps) sts' (Key.inj n) =
        getitemBase env (self :: ps) sts' (Key.inj n) := by rw [getitem]
    rw [e2] at hGood
    rw [e2, e3]
    exact getitemBase_stable env self ps sts sts' (Key.inj n)
      (fun s h => Key.noConfusion h) hGood
  | self :: ps, sts, sts', Key.dep d, hGood => by
    have e2 : getitem env (self :: ps) sts (Key.dep d) =
        getitemBase env (self :: ps) sts (Key.dep d) := by rw [getitem]
    have e3 : getitem env (self :: ps) sts' (Key.dep d) =
        getitemBase env (self :: ps) sts' (Key.dep d) := by rw [getitem]
    rw [e2] at hGood
    rw [e2, e3]
    exact getitemBase_stable env self ps sts sts' (Key.dep d)
      (fun s h => Key.noConfusion h) hGood
  | self :: ps, sts, sts', Key.prov p, hGood => by
    have e2 : getitem env (self :: ps) sts (Key.prov p) =
        getitemBase env (self :: ps) sts (Key.prov p) := by rw [getitem]
    have e3 : getitem env (self :: ps) sts' (Key.prov p) =
        getitemBase env (self :: ps) sts' (Key.prov p) := by rw [getitem]
    rw [e2] at hGood
    rw [e2, e3]
    exact getitemBase_stable env self ps sts sts' (Key.prov p)
      (fun s h => Key.noConfusion h) hGood
termination_by scopes _ _ k => (scopes.length, sizeOf k)
decreasing_by
  all_goals simp_wf
  · exact Prod.Lex.right _ (by simp)
  · exact Prod.Lex.right _ (by simp)
  · exact Prod.Lex.left _ _ (by simp)


/-- C1: `scope[k]` is idempotent and the `_resolved` memo is write-once.
For every scope chain, cache state and key, (1) a second `scope[k]`
immediately after a first one returns the same result, and (2) every entry
the `_resolved` memo of any scope in the chain holds under a
`(key, (container, locality))` pair before a lookup is still there,
unchanged, after it — no write of `__getitem__` / `__missing__` /
`_resolve_dependency` ever replaces an existing memo entry. -/
theorem c1_getitem_stable_and_memo_write_once (env : REnv)
    (scopes : List CT) (sts : List ScopeSt) (k : Key) :
    (getitem env scopes (getitem env scopes sts k).2 k).1 =
      (getitem env scopes sts k).1 ∧
    ∀ i k0 c loc d,
      Resolved.mlook (stAt sts i).resolved k0 c loc = some d →
      Resolved.mlook (stAt (getitem env scopes sts k).2 i).resolved k0 c
        loc = some d :=
  ⟨getitem_stable env scopes sts (getitem env scopes sts k).2 k
      (GoodE_refl env scopes (getitem env scopes sts k).2),
    fun i k0 c loc d h =>
      ((getitem_good env scopes sts k).1 i).2 k0 c loc d h⟩


end Xdi